import Mathlib

/-!
# Verification of the LaTeXPaste format-conversion pipeline

Shallow embedding of `src/backend/src/services/mathpixService.ts` (the two
`FormatConverter` classes) over `List Char`, with each JavaScript regex
operation hand-compiled to an executable scanner.  JavaScript string/regex
semantics that matter here and are mirrored faithfully:

* `String.prototype.replace` with a global regex scans left to right, does not
  rescan replacement text, and advances one position after a failed match;
* greedy (`*`, `+`, `{3,}`) and lazy (`*?`, `+?`) quantifiers with
  backtracking, resolved per pattern to a deterministic scanner;
* `^`/`$` with the `m` flag anchor at line boundaries (`^` is zero-width and
  consults the previous character of the original string), without `m` they
  anchor at the string ends; `\b` is an ASCII word boundary; `\s` is Unicode
  whitespace; `.` does not match `'\n'` unless the `s` flag is set;
* `String.prototype.split` with a capturing regex interleaves captures with
  the split pieces;
* a character class written `[阶段练习|期中|…]` matches ONE character drawn
  from the listed characters (including `'|'`), not the alternation.

Strings are modelled as `List Char`; `String.prototype.length` (UTF-16 units)
agrees with the character count on the BMP text handled here.  Floating-point
average length in `calculateOptimalColumns` is modelled by the equivalent
exact comparison `total > k * n`.
-/

namespace LatexPaste

abbrev Str := List Char

/-- JavaScript `\s` / `String.prototype.trim` whitespace. -/
def isJsWs (c : Char) : Bool :=
  c = ' ' || c = '\t' || c = '\n' || c = '\r' || c = '\x0b' || c = '\x0c' ||
  c = ' ' || c = ' ' || c = ' ' || c = ' ' || c = ' ' ||
  c = ' ' || c = ' ' || c = ' ' || c = ' ' || c = ' ' ||
  c = ' ' || c = ' ' || c = ' ' || c = ' ' || c = ' ' ||
  c = ' ' || c = ' ' || c = '　' || c = '﻿'

/-- JavaScript `\w` (ASCII word character). -/
def isWordChar (c : Char) : Bool :=
  ('a' ≤ c && c ≤ 'z') || ('A' ≤ c && c ≤ 'Z') || ('0' ≤ c && c ≤ '9') || c = '_'

/-- `String.prototype.trim`. -/
def jsTrim (l : Str) : Str :=
  ((l.dropWhile isJsWs).reverse.dropWhile isJsWs).reverse

/-- Substring containment, `String.prototype.includes`. -/
def strHas (pat : Str) : Str → Bool
  | [] => pat.isPrefixOf []
  | c :: t => pat.isPrefixOf (c :: t) || strHas pat t

/-- Decimal digit character for `n < 10`. -/
def digitChar (n : Nat) : Char := Char.ofNat (48 + n)

/-- Decimal digits of `n`, most significant first (fuel-driven; `natDigits`
supplies enough fuel). -/
def natDigitsAux : Nat → Nat → Str
  | 0, _ => []
  | fuel + 1, n =>
    if n < 10 then [digitChar n]
    else natDigitsAux fuel (n / 10) ++ [digitChar (n % 10)]

/-- Decimal representation of a natural number (`String(n)` in JS). -/
def natDigits (n : Nat) : Str := natDigitsAux (n + 1) n

/-- Consume a maximal run of ASCII digits, returning its value and the rest
(`parseInt` on the digits captured by a greedy `\d+`). -/
def parseNatAux : Str → Nat → Nat × Str
  | [], acc => (acc, [])
  | c :: t, acc =>
    if c.isDigit then parseNatAux t (acc * 10 + (c.toNat - 48)) else (acc, c :: t)

/-- Content before the first occurrence of character `stop`, and the rest
after consuming `stop` (lazy `[^stop]*stop` step). -/
def upToChar (stop : Char) : Str → Option (Str × Str)
  | [] => none
  | c :: t =>
    if c = stop then some ([], t)
    else (upToChar stop t).map (fun p => (c :: p.1, p.2))

/-- Content before the first occurrence of the string `stop`, and the rest
after consuming `stop` (lazy `[\s\S]*?stop` step); `stop` must be nonempty. -/
def upToStr (stop : Str) : Str → Option (Str × Str)
  | [] => if stop.isPrefixOf [] then some ([], []) else none
  | c :: t =>
    if stop.isPrefixOf (c :: t) then some ([], (c :: t).drop stop.length)
    else (upToStr stop t).map (fun p => (c :: p.1, p.2))

/-- Longest prefix of the run of characters satisfying `p` such that the
position right after it is a line end in `m`-mode (`next char is '\n'` or end
of string).  Models a greedy run followed by `$` with the `m` flag, with
backtracking. -/
def longestToLineEnd (p : Char → Bool) : Str → Option (Str × Str)
  | [] => some ([], [])
  | c :: t =>
    if p c then
      match longestToLineEnd p t with
      | some (a, r) => some (c :: a, r)
      | none => if c = '\n' then some ([], c :: t) else none
    else if c = '\n' then some ([], c :: t) else none

/-! ## Generic left-to-right global replace

A matcher receives the previous character of the original string (`none` at
the start; this is what JS `^`(m) and `\b` and lookbehinds consult) and the
current suffix; on success it returns the replacement text, the consumed
slice (always nonempty for the matchers below) and the remaining suffix. -/

abbrev Matcher := Option Char → Str → Option (Str × Str × Str)

/-- One pass of `String.prototype.replace(regex-with-g, …)`. -/
def replaceGo (m : Matcher) : Nat → Option Char → Str → Str
  | 0, _, l => l
  | fuel + 1, prev, l =>
    match l with
    | [] => []
    | c :: t =>
      match m prev (c :: t) with
      | some (rep, consumed, rest) =>
          rep ++ replaceGo m fuel (consumed.getLast? <|> prev) rest
      | none => c :: replaceGo m fuel (some c) t

/-- Global replace over a whole string. -/
def replaceAll (m : Matcher) (l : Str) : Str := replaceGo m (l.length + 1) none l

/-! ## Placeholder protection and restoration -/

/-- A span matcher recognises a protectable span at the head of the input,
returning the span and the rest. -/
abbrev SpanMatcher := Str → Option (Str × Str)

/-- Protect pass: each matched span is pushed onto the accumulator and
replaced by `tokenPre ++ decimal index ++ "__"`, mirroring
`replace(pattern, (match) => { list.push(match); return TOKEN; })`. -/
def protectGo (sm : SpanMatcher) (tokenPre : Str) : Nat → List Str → Str → Str × List Str
  | 0, acc, l => (l, acc)
  | fuel + 1, acc, l =>
    match l with
    | [] => ([], acc)
    | c :: t =>
      match sm (c :: t) with
      | some (span, rest) =>
          let ph := tokenPre ++ natDigits acc.length ++ ['_', '_']
          let r := protectGo sm tokenPre fuel (acc ++ [span]) rest
          (ph ++ r.1, r.2)
      | none =>
          let r := protectGo sm tokenPre fuel acc t
          (c :: r.1, r.2)

def protectAll (sm : SpanMatcher) (tokenPre : Str) (acc : List Str) (l : Str) :
    Str × List Str :=
  protectGo sm tokenPre (l.length + 1) acc l

/-- Recognise `tokenPre ++ digits ++ "__"` at the head of the input and
return the restored text (`list[parseInt(d)] || ''`) and the rest. -/
def tryToken (tokenPre : Str) (phs : List Str) (l : Str) : Option (Str × Str) :=
  if tokenPre.isPrefixOf l then
    match l.drop tokenPre.length with
    | c :: t =>
        if c.isDigit then
          match parseNatAux (c :: t) 0 with
          | (n, r') =>
            match r' with
            | '_' :: '_' :: rest => some (phs.getD n [], rest)
            | _ => none
        else none
    | [] => none
  else none

/-- Restore pass: `replace(/tokenPre(\d+)__/g, (_, i) => list[parseInt(i)] || '')`. -/
def restoreGo (tokenPre : Str) (phs : List Str) : Nat → Str → Str
  | 0, l => l
  | fuel + 1, l =>
    match l with
    | [] => []
    | c :: t =>
      match tryToken tokenPre phs (c :: t) with
      | some (rep, rest) => rep ++ restoreGo tokenPre phs fuel rest
      | none => c :: restoreGo tokenPre phs fuel t

def restoreAll (tokenPre : Str) (phs : List Str) (l : Str) : Str :=
  restoreGo tokenPre phs (l.length + 1) l

/-! ## Shared scanners for the `FormatConverter` classes -/

/-- `(match : Str)` helper: build a matcher from a plain scanner that ignores
the previous character. -/
def plainM (f : Str → Option (Str × Str × Str)) : Matcher := fun _ l => f l

/-- `\title{…}` / `\author{…}`: literal head, then lazy `[\s\S]*?\}`. -/
def cmdBlockM (head : Str) : Matcher := plainM fun l =>
  if head.isPrefixOf l then
    match upToChar '}' (l.drop head.length) with
    | some (mid, rest) => some ([], head ++ mid ++ ['}'], rest)
    | none => none
  else none

/-- ASCII-case-insensitive prefix test (for the one `/i`-flagged pattern). -/
def isPrefixOfCI : Str → Str → Bool
  | [], _ => true
  | _ :: _, [] => false
  | c :: p, d :: t => (c.toLower = d.toLower) && isPrefixOfCI p t

/-- Content before the first ASCII-case-insensitive occurrence of `stop`. -/
def upToStrCI (stop : Str) : Str → Option (Str × Str)
  | [] => if isPrefixOfCI stop [] then some ([], []) else none
  | c :: t =>
    if isPrefixOfCI stop (c :: t) then some ([], c :: t)
    else (upToStrCI stop t).map (fun p => (c :: p.1, p.2))

/-- `\section*{注意事项：?\}[\s\S]*?(?=\\section|$)` with `/gi`: header, then
lazily up to the next `\section` (case-insensitive) or the end. -/
def notesM : Matcher := plainM fun l =>
  if isPrefixOfCI "\\section*\x7b注意事项".toList l then
    let r0 := l.drop "\\section*\x7b注意事项".toList.length
    let r1 := match r0 with
      | '：' :: '}' :: rest => some (('：' :: ['}']), rest)
      | '}' :: rest => some (['}'], rest)
      | _ => none
    match r1 with
    | some (tailHead, rest) =>
        match upToStrCI "\\section".toList rest with
        | some (mid, _) =>
            some ([], "\\section*\x7b注意事项".toList ++ tailHead ++ mid, rest.drop mid.length)
        | none => some ([], "\\section*\x7b注意事项".toList ++ tailHead ++ rest, [])
    | none => none
  else none

def cjkNumeral (c : Char) : Bool :=
  c = '一' || c = '二' || c = '三' || c = '四' || c = '五' ||
  c = '六' || c = '七' || c = '八' || c = '九' || c = '十'

/-- `\section*{[一二三四五六七八九十]、[^}]+\}`. -/
def sectionTitleM : Matcher := plainM fun l =>
  if "\\section*\x7b".toList.isPrefixOf l then
    match l.drop 10 with
    | c :: '、' :: t =>
        if cjkNumeral c then
          match upToChar '}' t with
          | some (mid, rest) =>
              if mid = [] then none
              else some ([], "\\section*\x7b".toList ++ c :: '、' :: mid ++ ['}'], rest)
          | none => none
        else none
    | _ => none
  else none

/-- `^[^\n]*(?:实验中学|育才中学|师大|附中)[\s\S]*?\n` with `/gm`: a whole line
containing one of the school markers, including its terminating newline. -/
def schoolM : Matcher := fun prev l =>
  if prev = none || prev = some '\n' then
    let line := l.takeWhile (fun c => !(c = '\n'))
    if strHas "实验中学".toList line || strHas "育才中学".toList line ||
       strHas "师大".toList line || strHas "附中".toList line then
      match l.drop line.length with
      | '\n' :: rest => some ([], line ++ ['\n'], rest)
      | _ => none
    else none
  else none

/-- `公众号[^。]*。` (and the `（B）`-prefixed variant): marker, then up to and
including the next `。`. -/
def gzhSentenceM (head : Str) : Matcher := plainM fun l =>
  if head.isPrefixOf l then
    match upToChar '。' (l.drop head.length) with
    | some (mid, rest) => some ([], head ++ mid ++ ['。'], rest)
    | none => none
  else none

/-- `公众号[^。]*$` with `/gm` (and the `（B）` variant): marker, then the
longest non-`。` stretch ending at a line end. -/
def gzhLineM (head : Str) : Matcher := plainM fun l =>
  if head.isPrefixOf l then
    match longestToLineEnd (fun c => !(c = '。')) (l.drop head.length) with
    | some (mid, rest) => some ([], head ++ mid, rest)
    | none => none
  else none

/-- `图\s*$` with `/gm`: `图`, then the longest whitespace prefix ending at a
line end. -/
def figM : Matcher := plainM fun l =>
  match l with
  | '图' :: t =>
      match longestToLineEnd isJsWs t with
      | some (mid, rest) => some ([], '图' :: mid, rest)
      | none => none
  | _ => none

/-- `图\s*公众号[^。]*$` with `/gm`. -/
def figGzhM : Matcher := plainM fun l =>
  match l with
  | '图' :: t =>
      let ws := t.takeWhile isJsWs
      let r := t.drop ws.length
      if "公众号".toList.isPrefixOf r then
        match longestToLineEnd (fun c => !(c = '。')) (r.drop 3) with
        | some (mid, rest) =>
            some ([], '图' :: ws ++ "公众号".toList ++ mid, rest)
        | none => none
      else none
  | _ => none

/-- `\^\{[^}]*\\frac[^}]*\}`: an exponent group, brace-free, containing
`\frac`. -/
def exponentSpanM : SpanMatcher := fun l =>
  match l with
  | '^' :: '{' :: t =>
      match upToChar '}' t with
      | some (w, rest) =>
          if strHas "\\frac".toList w then some ('^' :: '{' :: w ++ ['}'], rest)
          else none
      | none => none
  | _ => none

/-- `\\dfrac\{[^}]*\\frac[^}]*\}`: a `\dfrac{` argument, brace-free,
containing `\frac`. -/
def nestedFracSpanM : SpanMatcher := fun l =>
  if "\\dfrac\x7b".toList.isPrefixOf l then
    match upToChar '}' (l.drop 7) with
    | some (w, rest) =>
        if strHas "\\frac".toList w then some ("\\dfrac\x7b".toList ++ w ++ ['}'], rest)
        else none
    | none => none
  else none

/-- `\\frac\b` → `\dfrac`. -/
def fracM : Matcher := plainM fun l =>
  if "\\frac".toList.isPrefixOf l then
    match l.drop 5 with
    | [] => some ("\\dfrac".toList, "\\frac".toList, [])
    | c :: rest =>
        if isWordChar c then none
        else some ("\\dfrac".toList, "\\frac".toList, c :: rest)
  else none

/-- `\\mathbf\b` → `\mathbb`. -/
def mathbfM : Matcher := plainM fun l =>
  if "\\mathbf".toList.isPrefixOf l then
    match l.drop 7 with
    | [] => some ("\\mathbb".toList, "\\mathbf".toList, [])
    | c :: rest =>
        if isWordChar c then none
        else some ("\\mathbb".toList, "\\mathbf".toList, c :: rest)
  else none

/-- `$$…$$` block-math span (`\$\$[\s\S]*?\$\$`). -/
def blockMathSpanM : SpanMatcher := fun l =>
  match l with
  | '$' :: '$' :: t =>
      match upToStr "$$".toList t with
      | some (mid, rest) => some ('$' :: '$' :: mid ++ ['$', '$'], rest)
      | none => none
  | _ => none

/-- `$…$` inline-math span (`\$[^$]*\$`). -/
def inlineMathSpanM : SpanMatcher := fun l =>
  match l with
  | '$' :: t =>
      let mid := t.takeWhile (fun c => !(c = '$'))
      match t.drop mid.length with
      | '$' :: rest => some ('$' :: mid ++ ['$'], rest)
      | _ => none
  | _ => none

/-! ## Splitting on numbering markers -/

def qDelim (c : Char) : Bool := c = '．' || c = '.' || c = '、'

/-- Core of the question separator after the `(?:^|\n)` anchor:
`(\d+)[．\.\、]\s*`.  Returns the captured digits, whether the consumed
whitespace run ended in a newline, and the rest. -/
def qSepCore (l : Str) : Option (Str × Bool × Str) :=
  let ds := l.takeWhile Char.isDigit
  if ds = [] then none
  else
    match l.drop ds.length with
    | c :: t =>
        if qDelim c then
          let ws := t.takeWhile isJsWs
          some (ds, ws.getLast? = some '\n', t.drop ws.length)
        else none
    | [] => none

/-- The full separator `(?:^|\n)(\d+)[．\.\、]\s*` with `/gm` at a position
that is a line start iff `atLS` (the zero-width `^` alternative is tried
first, then the `\n`-consuming one). -/
def qSepAt (atLS : Bool) (l : Str) : Option (Str × Bool × Str) :=
  match if atLS then qSepCore l else none with
  | some r => some r
  | none =>
      match l with
      | '\n' :: t => qSepCore t
      | _ => none

/-- `content.split(/(?:^|\n)(\d+)[．\.\、]\s*/gm)` folded into the part before
the first marker plus `(digits, following content)` pairs. -/
def splitQGo : Nat → Bool → Str → Str × List (Str × Str)
  | 0, _, l => (l, [])
  | fuel + 1, atLS, l =>
    match l with
    | [] => ([], [])
    | c :: t =>
      match qSepAt atLS (c :: t) with
      | some (ds, wsNl, rest) =>
          let r := splitQGo fuel wsNl rest
          ([], (ds, r.1) :: r.2)
      | none =>
          let r := splitQGo fuel (c = '\n') t
          (c :: r.1, r.2)

def splitQ (l : Str) : Str × List (Str × Str) := splitQGo (l.length + 1) true l

/-- Section separator `(?:^|\n)([一二三四五六七八九十]+)．` with `/gm`. -/
def secSepCore (l : Str) : Option (Str × Str) :=
  let ds := l.takeWhile cjkNumeral
  if ds = [] then none
  else
    match l.drop ds.length with
    | '．' :: t => some (ds, t)
    | _ => none

def secSepAt (atLS : Bool) (l : Str) : Option (Str × Str) :=
  match if atLS then secSepCore l else none with
  | some r => some r
  | none =>
      match l with
      | '\n' :: t => secSepCore t
      | _ => none

/-- `content.split(/(?:^|\n)([一二三四五六七八九十]+)．/gm)` folded into the
part before the first marker plus `(numeral, section body)` pairs. -/
def splitSecGo : Nat → Bool → Str → Str × List (Str × Str)
  | 0, _, l => (l, [])
  | fuel + 1, atLS, l =>
    match l with
    | [] => ([], [])
    | c :: t =>
      match secSepAt atLS (c :: t) with
      | some (ds, rest) =>
          let r := splitSecGo fuel false rest
          ([], (ds, r.1) :: r.2)
      | none =>
          let r := splitSecGo fuel (c = '\n') t
          (c :: r.1, r.2)

def splitSec (l : Str) : Str × List (Str × Str) := splitSecGo (l.length + 1) true l

/-! ## Sub-question markers `（n）` / `(n)` -/

def subOpen (c : Char) : Bool := c = '（' || c = '('
def subClose (c : Char) : Bool := c = '）' || c = ')'

/-- `[（(]\d+[）)]` at the head: returns `(digits, rest after the close)`. -/
def markerSplit (l : Str) : Option (Str × Str) :=
  match l with
  | c :: t =>
      if subOpen c then
        let ds := t.takeWhile Char.isDigit
        if ds = [] then none
        else
          match t.drop ds.length with
          | c2 :: rest => if subClose c2 then some (ds, rest) else none
          | [] => none
      else none
  | [] => none

def markerAt (l : Str) : Bool := (markerSplit l).isSome

/-- `/[（(]\d+[）)]/.test(content)`. -/
def hasSubQ : Str → Bool
  | [] => false
  | c :: t => markerAt (c :: t) || hasSubQ t

/-- Number of matches of `content.match(/[（(]\d+[）)]/g)` (non-overlapping,
left to right). -/
def countSubQ : Nat → Str → Nat
  | 0, _ => 0
  | _ + 1, [] => 0
  | fuel + 1, c :: t =>
    match markerSplit (c :: t) with
    | some (_, rest) => 1 + countSubQ fuel rest
    | none => countSubQ fuel t

def countSubQAll (l : Str) : Nat := countSubQ (l.length + 1) l

/-- First sub-question marker: `(before, rest-after-close)` or `none`. -/
def findMarker : Str → Option (Str × Str)
  | [] => none
  | c :: t =>
    match markerSplit (c :: t) with
    | some (_, rest) => some ([], rest)
    | none => (findMarker t).map (fun p => (c :: p.1, p.2))

/-- Lazy `(.+?)(?=[（(]\d+[）)]|$)` step with the `s` flag: the least
`t ≥ 1` such that position `t` starts a marker or is the end. -/
def lazySubLen : Str → Nat
  | [] => 0
  | _ :: t => if markerAt t || t = [] then 1 else 1 + lazySubLen t

/-- Exec loop of `/[（(](\d+)[）)]\s*(.+?)(?=[（(]\d+[）)]|$)/gs`, pushing
`\item ` + trimmed capture 2 for each match with nonempty trimmed content. -/
def subQGo : Nat → Str → List Str
  | 0, _ => []
  | fuel + 1, l =>
    match findMarker l with
    | none => []
    | some (_, S) =>
      match S with
      | [] => []
      | _ :: _ =>
        let w := (S.takeWhile isJsWs).length
        if w = S.length then []
        else
          let S' := S.drop w
          let t := lazySubLen S'
          let content := S'.take t
          let rest := S'.drop t
          let trimmed := jsTrim content
          (if trimmed = [] then [] else ["\\item ".toList ++ trimmed]) ++
            subQGo fuel rest

def subQItems (l : Str) : List Str := subQGo (l.length + 1) l

/-! ## Classifier predicates -/

def optLetter (c : Char) : Bool := 'A' ≤ c && c ≤ 'D'
def optDelim (c : Char) : Bool := c = '．' || c = '.' || c = ')' || c = '、'

/-- `/[A-D][．\.\)、]\s*[^\n]+/.test(text)`: a letter, a delimiter, then some
whitespace followed by a non-newline character.  Existence of a match is
equivalent to a non-newline character being reachable across a run of
newlines (a non-newline whitespace character itself satisfies `[^\n]`). -/
def hasOptionsRe : Str → Bool
  | [] => false
  | c :: t =>
    (optLetter c &&
      (match t with
       | d :: t2 => optDelim d && !((t2.dropWhile (fun x => x = '\n')) = [])
       | [] => false)) ||
    hasOptionsRe t

/-- `/多选|不定项选择|多项选择/.test(text)`. -/
def hasMultiToken (l : Str) : Bool :=
  strHas "多选".toList l || strHas "不定项选择".toList l || strHas "多项选择".toList l

/-- `\$_{3,}\$` test: `$`, a maximal run of at least three underscores, `$`. -/
def hasDollarUnderscores : Str → Bool
  | [] => false
  | c :: t =>
    (c = '$' &&
      (let u := t.takeWhile (fun x => x = '_')
       3 ≤ u.length &&
         match t.drop u.length with
         | '$' :: _ => true
         | _ => false)) ||
    hasDollarUnderscores t

/-- `/_{3,}|\$_{3,}\$|\$\\_\\_\\_\\_\$|\\\\_{3,}/.test(text)`. -/
def hasBlankMarker (l : Str) : Bool :=
  strHas "___".toList l || hasDollarUnderscores l ||
  strHas "$\\_\\_\\_\\_$".toList l || strHas "\\\\___".toList l

/-- Strip the trailing `\s*[．。]?\s*$` of the (reversed) string; all six
fill patterns end with this tail, and the parse is deterministic because
none of the characters that may precede it is whitespace or `．`/`。`. -/
def revAfterTail (rev : Str) : Str :=
  let r1 := rev.dropWhile isJsWs
  match r1 with
  | c :: t => if c = '．' || c = '。' then t.dropWhile isJsWs else r1
  | [] => r1

/-- Bounded `X.{0,gap}` searched backwards: does a character satisfying `p`
occur within `gap` non-newline characters, with `k` holding on the rest? -/
def seekPThen (p : Char → Bool) (k : Str → Bool) : Nat → Str → Bool
  | _, [] => false
  | 0, c :: t => p c && k t
  | gap + 1, c :: t =>
    (p c && k t) || (!(c = '\n') && seekPThen p k gap t)

/-- Bounded backwards search for a reversed character sequence. -/
def seekSeqThen (tgt : Str) (k : Str → Bool) : Nat → Str → Bool
  | 0, l => tgt.isPrefixOf l && k (l.drop tgt.length)
  | gap + 1, l =>
    (tgt.isPrefixOf l && k (l.drop tgt.length)) ||
    (match l with
     | [] => false
     | c :: t => !(c = '\n') && seekSeqThen tgt k gap t)

def alwaysTrue : Str → Bool := fun _ => true

def isColon (c : Char) : Bool := c = ':' || c = '：'
def isCnComma (c : Char) : Bool := c = '，' || c = ','

/-- `/则.{0,15}[为是][:：]\s*[．。]?\s*$/.test(text)`. -/
def fillPat1 (l : Str) : Bool :=
  match revAfterTail l.reverse with
  | c :: d :: t =>
      isColon c && (d = '为' || d = '是') &&
        seekPThen (fun x => x = '则') alwaysTrue 15 t
  | _ => false

/-- `/若.{0,30}[，,].{0,15}则.{0,15}[:：]\s*[．。]?\s*$/.test(text)`. -/
def fillPat2 (l : Str) : Bool :=
  match revAfterTail l.reverse with
  | c :: t =>
      isColon c &&
        seekPThen (fun x => x = '则')
          (fun r2 =>
            seekPThen isCnComma
              (fun r3 => seekPThen (fun x => x = '若') alwaysTrue 30 r3) 15 r2)
          15 t
  | [] => false

/-- `/.{0,15}=\s*[．。]?\s*$/.test(text)`. -/
def fillPat3 (l : Str) : Bool :=
  match revAfterTail l.reverse with
  | '=' :: _ => true
  | _ => false

/-- `/.{0,15}的值为\s*[．。]?\s*$/.test(text)`. -/
def fillPat4 (l : Str) : Bool :=
  "为值的".toList.isPrefixOf (revAfterTail l.reverse)

/-- `/求.{0,15}[:：]\s*[．。]?\s*$/.test(text)`. -/
def fillPat5 (l : Str) : Bool :=
  match revAfterTail l.reverse with
  | c :: t => isColon c && seekPThen (fun x => x = '求') alwaysTrue 15 t
  | [] => false

/-- `/计算.{0,15}[:：]\s*[．。]?\s*$/.test(text)`. -/
def fillPat6 (l : Str) : Bool :=
  match revAfterTail l.reverse with
  | c :: t => isColon c && seekSeqThen "算计".toList alwaysTrue 15 t
  | [] => false

def anyFillPattern (l : Str) : Bool :=
  fillPat1 l || fillPat2 l || fillPat3 l || fillPat4 l || fillPat5 l || fillPat6 l

/-- `\[IMAGE_\d+\]` / `\[TABLE_\d+\]` placeholder matcher. -/
def bracketTagM (head : Str) : Matcher := plainM fun l =>
  if head.isPrefixOf l then
    let r := l.drop head.length
    let ds := r.takeWhile Char.isDigit
    if ds = [] then none
    else
      match r.drop ds.length with
      | ']' :: rest => some ([], head ++ ds ++ [']'], rest)
      | _ => none
  else none

/-- `text.replace(/\[IMAGE_\d+\]/g, '').replace(/\[TABLE_\d+\]/g, '')`. -/
def stripImgTable (l : Str) : Str :=
  replaceAll (bracketTagM "[TABLE_".toList) (replaceAll (bracketTagM "[IMAGE_".toList) l)

/-- The four question types. -/
inductive QType where
  | choice
  | multipleChoice
  | fill
  | solution
deriving DecidableEq, Repr

/-! ## Score-annotation stripping (`removeScoreInfo`) -/

/-- Parse `[（(]\s*\d+\s*分\s*[）)]` at the head, returning the consumed slice
and the rest. -/
def scoreParen (l : Str) : Option (Str × Str) :=
  match l with
  | c :: t =>
      if subOpen c then
        let w1 := t.takeWhile isJsWs
        let r1 := t.drop w1.length
        let ds := r1.takeWhile Char.isDigit
        if ds = [] then none
        else
          let r2 := r1.drop ds.length
          let w2 := r2.takeWhile isJsWs
          match r2.drop w2.length with
          | '分' :: r3 =>
              let w3 := r3.takeWhile isJsWs
              match r3.drop w3.length with
              | c2 :: rest =>
                  if subClose c2 then
                    some (c :: w1 ++ ds ++ w2 ++ '分' :: w3 ++ [c2], rest)
                  else none
              | [] => none
          | _ => none
      else none
  | [] => none

/-- Rule 1: `[（(]本小题满分\s*\d+\s*分[）)]` → `''`. -/
def scoreFullM : Matcher := plainM fun l =>
  match l with
  | c :: t =>
      if subOpen c && "本小题满分".toList.isPrefixOf t then
        let r0 := t.drop 5
        let w1 := r0.takeWhile isJsWs
        let r1 := r0.drop w1.length
        let ds := r1.takeWhile Char.isDigit
        if ds = [] then none
        else
          let r2 := r1.drop ds.length
          let w2 := r2.takeWhile isJsWs
          match r2.drop w2.length with
          | '分' :: c2 :: rest =>
              if subClose c2 then
                some ([], c :: "本小题满分".toList ++ w1 ++ ds ++ w2 ++ '分' :: [c2], rest)
              else none
          | _ => none
      else none
  | [] => none

/-- Rule 2: `[（(]\s*\d+\s*分\s*[）)]` → `''`. -/
def scoreParenM : Matcher := plainM fun l =>
  (scoreParen l).map (fun p => ([], p.1, p.2))

/-- Rule 3: `\b\d+\s*分\b` → `''`; the leading boundary needs a non-word (or
absent) previous character, the trailing boundary after the non-word `分`
needs a following word character. -/
def scoreBareM : Matcher := fun prev l =>
  let boundaryOk := match prev with
    | none => true
    | some p => !isWordChar p
  if boundaryOk then
    let ds := l.takeWhile Char.isDigit
    if ds = [] then none
    else
      let r1 := l.drop ds.length
      let w := r1.takeWhile isJsWs
      match r1.drop w.length with
      | '分' :: rest =>
          match rest with
          | c2 :: _ => if isWordChar c2 then some ([], ds ++ w ++ ['分'], rest) else none
          | [] => none
      | _ => none
  else none

/-- Rule 4: `^(\d+[．\.\、]\s*)[（(]\s*\d+\s*分\s*[）)]\s*` with `/gm` → `'$1'`. -/
def scoreLeadM : Matcher := fun prev l =>
  if prev = none || prev = some '\n' then
    let ds := l.takeWhile Char.isDigit
    if ds = [] then none
    else
      match l.drop ds.length with
      | c :: t =>
          if qDelim c then
            let w := t.takeWhile isJsWs
            let g1 := ds ++ c :: w
            match scoreParen (t.drop w.length) with
            | some (con, rest) =>
                let w2 := rest.takeWhile isJsWs
                some (g1, g1 ++ con ++ w2, rest.drop w2.length)
            | none => none
          else none
      | [] => none
  else none

/-- Rule 5: `\s*[（(]\s*\d+\s*分\s*[）)]\s*$` with `/gm` → `''`. -/
def scoreTrailM : Matcher := plainM fun l =>
  let w := l.takeWhile isJsWs
  match scoreParen (l.drop w.length) with
  | some (con, rest) =>
      match longestToLineEnd isJsWs rest with
      | some (w2, rest2) => some ([], w ++ con ++ w2, rest2)
      | none => none
  | none => none

/-- Rule 6: `\s*[（(]\s*\d+\s*分\s*[）)]\s*` → `' '`. -/
def scoreMidM : Matcher := plainM fun l =>
  let w := l.takeWhile isJsWs
  match scoreParen (l.drop w.length) with
  | some (con, rest) =>
      let w2 := rest.takeWhile isJsWs
      some ([' '], w ++ con ++ w2, rest.drop w2.length)
  | none => none

/-- `removeScoreInfo` (identical in both `FormatConverter` versions). -/
def removeScoreInfo (content : Str) : Str :=
  let f0 := jsTrim content
  let f1 := replaceAll scoreFullM f0
  let f2 := replaceAll scoreParenM f1
  let f3 := replaceAll scoreBareM f2
  let f4 := replaceAll scoreLeadM f3
  let f5 := replaceAll scoreTrailM f4
  let f6 := replaceAll scoreMidM f5
  jsTrim f6

/-! ## Fill-blank normalisation (`convertFillQuestion` passes) -/

/-- `\$\$_{3,}\$\$` → `\underlines`. -/
def fillBlockRunM : Matcher := plainM fun l =>
  match l with
  | '$' :: '$' :: t =>
      let u := t.takeWhile (fun x => x = '_')
      if 3 ≤ u.length then
        match t.drop u.length with
        | '$' :: '$' :: rest =>
            some ("\\underlines".toList, '$' :: '$' :: u ++ ['$', '$'], rest)
        | _ => none
      else none
  | _ => none

/-- A literal pattern replaced by `\underlines`
(`\$\$\\_\\_\\_\\_\$\$` and the inline variants). -/
def fillLiteralM (pat : Str) : Matcher := plainM fun l =>
  if pat.isPrefixOf l then some ("\\underlines".toList, pat, l.drop pat.length)
  else none

/-- `\$_{3,}\$` → `\underlines`. -/
def fillInlineRunM : Matcher := plainM fun l =>
  match l with
  | '$' :: t =>
      let u := t.takeWhile (fun x => x = '_')
      if 3 ≤ u.length then
        match t.drop u.length with
        | '$' :: rest => some ("\\underlines".toList, '$' :: u ++ ['$'], rest)
        | _ => none
      else none
  | _ => none

/-- `(?<!\$)\\?_{3,}(?!\$)` → `\underlines`: an optional backslash, a run of
at least three underscores (greedy, giving one back when a `$` follows), not
preceded by `$`. -/
def fillBareRunM : Matcher := fun prev l =>
  if prev = some '$' then none
  else
    let core : Str → Str → Option (Str × Str × Str) := fun lead t =>
      let u := t.takeWhile (fun x => x = '_')
      if 3 ≤ u.length then
        match t.drop u.length with
        | '$' :: rest =>
            if 4 ≤ u.length then
              some ("\\underlines".toList, lead ++ u.dropLast, '_' :: '$' :: rest)
            else none
        | rest => some ("\\underlines".toList, lead ++ u, rest)
      else none
    match l with
    | '\\' :: t => core ['\\'] t
    | '_' :: _ => core [] l
    | _ => none

/-- The final conditional append of `convertFillQuestion`: if the text has no
`\underlines` but matches `/[:：=]\s*[．。]?\s*$/`, apply
`replace(/[．。]?\s*$/, ' \\underlines ．')` (first match only). -/
def endsColonEq (l : Str) : Bool :=
  match revAfterTail l.reverse with
  | c :: _ => c = ':' || c = '：' || c = '='
  | [] => false

/-- First position of `[．。]?\s*$`: replace the trailing
`(optional ．/。)(whitespace)` suffix — always defined, possibly empty. -/
def replaceTailBlank : Str → Str
  | [] => " \\underlines ．".toList
  | c :: t =>
      if ((c = '．' || c = '。') && t.all isJsWs) || (c :: t).all isJsWs then
        " \\underlines ．".toList
      else c :: replaceTailBlank t

/-- `convertFillQuestion` of the later `FormatConverter`. -/
def convertFillQuestion (content : Str) : Str :=
  let c0 := removeScoreInfo (jsTrim content)
  let c1 := replaceAll fillBlockRunM c0
  let c2 := replaceAll (fillLiteralM "$$\\_\\_\\_\\_$$".toList) c1
  let c3 := replaceAll fillInlineRunM c2
  let c4 := replaceAll (fillLiteralM "$\\_\\_\\_\\_$".toList) c3
  let c5 := replaceAll fillBareRunM c4
  if !(strHas "\\underlines".toList c5) && endsColonEq c5 then
    replaceTailBlank c5
  else c5

/-! ## Choice conversion -/

/-- Average visible length: strip `\$[^$]*\$` spans. -/
def optMathM : Matcher := plainM fun l =>
  (inlineMathSpanM l).map (fun p => ([], p.1, p.2))

/-- Strip `\\[a-zA-Z]+\{[^}]*\}` commands. -/
def optCmdM : Matcher := plainM fun l =>
  match l with
  | '\\' :: t =>
      let name := t.takeWhile (fun c => ('a' ≤ c && c ≤ 'z') || ('A' ≤ c && c ≤ 'Z'))
      if name = [] then none
      else
        match t.drop name.length with
        | '{' :: r =>
            match upToChar '}' r with
            | some (mid, rest) =>
                some ([], '\\' :: name ++ '{' :: mid ++ ['}'], rest)
            | none => none
        | _ => none
  | _ => none

/-- Visible text length of one option
(`option.replace(/\$[^$]*\$/g, '').replace(/\\[a-zA-Z]+\{[^}]*\}/g, '').trim().length`). -/
def cleanOptionLength (o : Str) : Nat :=
  (jsTrim (replaceAll optCmdM (replaceAll optMathM o))).length

/-- `calculateOptimalColumns`; the float comparison `avg > k` is modelled by
the exact `total > k * n`. -/
def calculateOptimalColumns (options : List Str) : Nat :=
  match options with
  | [] => 1
  | [_] => 1
  | _ =>
    let n := options.length
    let total := (options.map cleanOptionLength).sum
    if 30 * n < total then min n 2
    else if 15 * n < total then min n 3
    else if 8 * n < total then min n 4
    else min n 6

/-- First match of `\n[A-D][．\.\)、]\s*`: split `content` into the part
before the newline and the part from the newline on. -/
def splitAtFirstOpt : Str → Option (Str × Str)
  | [] => none
  | c :: t =>
    match c :: t with
    | '\n' :: d :: e :: _ =>
        if optLetter d && optDelim e then some ([], c :: t)
        else (splitAtFirstOpt t).map (fun p => (c :: p.1, p.2))
    | _ => (splitAtFirstOpt t).map (fun p => (c :: p.1, p.2))

/-- Lookahead `(?=\n[A-D][．\.\)、]|\n\n|$)` of the option-extraction regex. -/
def optLookahead (r : Str) : Bool :=
  match r with
  | [] => true
  | '\n' :: '\n' :: _ => true
  | '\n' :: d :: e :: _ => optLetter d && optDelim e
  | _ => false

/-- Lazy `([^\n]+?)` until `optLookahead`: number of characters consumed, or
`none` if a newline (or the end) blocks before the lookahead holds. -/
def lazyOptLen : Str → Option Nat
  | [] => none
  | c :: t =>
      if c = '\n' then none
      else if optLookahead t then some 1
      else (lazyOptLen t).map (fun n => n + 1)

/-- Backtracking over the greedy `\s*`: try `w` whitespace characters first,
then fewer. -/
def tryOptBody (t : Str) : Nat → Option (Str × Str)
  | 0 =>
    (lazyOptLen t).map (fun n => (t.take n, t.drop n))
  | w + 1 =>
    match lazyOptLen (t.drop (w + 1)) with
    | some n => some ((t.drop (w + 1)).take n, (t.drop (w + 1)).drop n)
    | none => tryOptBody t w

/-- One attempt of `([A-D])[．\.\)、]\s*([^\n]+?)(?=…)` at the current
position: returns capture 2 and the rest on success. -/
def tryOptAt (l : Str) : Option (Str × Str) :=
  match l with
  | c :: d :: t =>
      if optLetter c && optDelim d then
        tryOptBody t (t.takeWhile isJsWs).length
      else none
  | _ => none

/-- Exec loop collecting the trimmed nonempty option texts. -/
def extractOptions : Nat → Str → List Str
  | 0, _ => []
  | _ + 1, [] => []
  | fuel + 1, c :: t =>
    match tryOptAt (c :: t) with
    | some (body, rest) =>
        let trimmed := jsTrim body
        (if trimmed = [] then [] else [trimmed]) ++ extractOptions fuel rest
    | none => extractOptions fuel t

/-- `（\s*）` and `(\s*)` → `\dotfill（\qquad \qquad）`. -/
def dotfillM (openC closeC : Char) : Matcher := plainM fun l =>
  match l with
  | c :: t =>
      if c = openC then
        let w := t.takeWhile isJsWs
        match t.drop w.length with
        | c2 :: rest =>
            if c2 = closeC then
              some ("\\dotfill（\\qquad \\qquad）".toList, c :: w ++ [c2], rest)
            else none
        | [] => none
      else none
  | [] => none

/-- `convertChoiceQuestion` of the later `FormatConverter`. -/
def convertChoiceQuestion (content : Str) : Str :=
  match splitAtFirstOpt content with
  | none => content
  | some (before, optionsText) =>
      let stem0 := jsTrim before
      let options := extractOptions (optionsText.length + 1) optionsText
      let stem1 := removeScoreInfo stem0
      let stem2 := replaceAll (dotfillM '（' '）') stem1
      let stem3 := replaceAll (dotfillM '(' ')') stem2
      let cols := calculateOptimalColumns options
      stem3 ++ "\n\n".toList ++ "\\begin{tasks}(".toList ++ natDigits cols ++
        ")\n".toList ++
        (options.map (fun o => "\\task ".toList ++ o ++ ['\n'])).flatten ++
        "\\end{tasks}".toList

/-! ## Solution conversion -/

/-- `separateStemAndSubQuestions`. -/
def separateStemAndSubQuestions (content : Str) : Str × List Str :=
  match findMarker content with
  | none => (content, [])
  | some (before, _) => (jsTrim before, subQItems content)

/-- The two-newline join. -/
def joinNN (l : List Str) : Str := (l.intersperse "\n\n".toList).flatten

/-- The single-newline join. -/
def joinN (l : List Str) : Str := (l.intersperse ['\n']).flatten

/-- `convertMultipleSolutionQuestions`. -/
def convertMultipleSolutionQuestions (content : Str) : Str :=
  let questions := subQItems content
  if questions = [] then content
  else
    let hasStem := strHas "已知".toList content || strHas "设".toList content ||
      strHas "若".toList content || strHas "求".toList content ||
      strHas "证明".toList content || strHas "求证".toList content
    if hasStem && 1 < questions.length then joinNN questions
    else "\\begin{problem}\n".toList ++ joinN questions ++ "\n\\end{problem}".toList

/-- `[^）)]*[）)]`: skip to and past the first closing parenthesis. -/
def upToCloseParen : Str → Option Str
  | [] => none
  | c :: t => if subClose c then some t else upToCloseParen t

/-- Leading `^\d+[．\.\、]\s*[（(（][^）)]*[）)]\s*` removal (applied once, at
the start only). -/
def stripLeadNumSource (l : Str) : Str :=
  let ds := l.takeWhile Char.isDigit
  if ds = [] then l
  else
    match l.drop ds.length with
    | c :: t =>
        if qDelim c then
          let w := t.takeWhile isJsWs
          match (t.drop w.length) with
          | c2 :: t2 =>
              if subOpen c2 then
                match upToCloseParen t2 with
                | some rest => rest.dropWhile isJsWs
                | none => l
              else l
          | [] => l
        else l
    | [] => l

/-- Leading `^[（(（][^）)]*[SET][^）)]*[）)]\s*` removal: the bracketed
"alternation" in the source is a character class, so the parenthesised text
before the first closing parenthesis must contain at least one character of
`set`. -/
def stripLeadSourceSet (set : List Char) (l : Str) : Str :=
  match l with
  | c :: t =>
      if subOpen c then
        let mid := t.takeWhile (fun x => !subClose x)
        if mid.any (fun x => set.contains x) then
          match t.drop mid.length with
          | c2 :: rest =>
              if subClose c2 then rest.dropWhile isJsWs else l
          | [] => l
        else l
      else l
  | [] => l

/-- Characters of the class `[阶段练习|期中|期末|月考|模拟|联考|调研|测试|考试|试卷]`. -/
def examSetChars : List Char :=
  "阶段练习|期中末月考模拟联调研测试卷".toList

/-- Characters of the class `[高三|高二|高一|初中|小学]`. -/
def gradeSetChars : List Char := "高三|二一初中小学".toList

/-- Characters of the class listing the province and city names. -/
def provSetChars : List Char :=
  "上海|北京广东江苏浙山河南四川湖安徽福建西辽宁黑龙吉林陕甘肃青夏新疆藏内蒙古贵州云重庆天津".toList

/-- `convertSolutionQuestion` of the later `FormatConverter`. -/
def convertSolutionQuestion (content : Str) : Str :=
  let c0 := removeScoreInfo (jsTrim content)
  let c1 := stripLeadNumSource c0
  let c2 := stripLeadSourceSet examSetChars c1
  let c3 := stripLeadSourceSet gradeSetChars c2
  let c4 := stripLeadSourceSet provSetChars c3
  if 1 < countSubQAll c4 then convertMultipleSolutionQuestions c4
  else
    let p := separateStemAndSubQuestions c4
    if p.2 = [] then c4
    else
      p.1 ++ (if jsTrim p.1 = [] then [] else "\n\n".toList) ++
        "\\begin{problem}\n".toList ++ joinN p.2 ++ "\n\\end{problem}".toList

/-- `convertQuestionWithSubProblems` (used by the later `splitQuestions`). -/
def convertQuestionWithSubProblems (content : Str) : Str :=
  let p := separateStemAndSubQuestions content
  if p.2 = [] then "\\item ".toList ++ content
  else
    p.1 ++ (if jsTrim p.1 = [] then [] else "\n\n".toList) ++
      "\\begin{problem}\n".toList ++ joinN p.2 ++ "\n\\end{problem}".toList

/-! ## Classifier and per-question dispatch (shared shape of both versions) -/

/-- `detectQuestionType` (identical in both `FormatConverter` versions). -/
def detectQuestionType (text : Str) : QType :=
  let cleanText := stripImgTable text
  if hasOptionsRe cleanText then
    if hasMultiToken cleanText then .multipleChoice else .choice
  else if hasBlankMarker cleanText then .fill
  else if anyFillPattern cleanText then .fill
  else .solution

/-- `^\\item\s*` removal (no `g`/`m`: at the string start, once). -/
def stripLeadItem (l : Str) : Str :=
  if "\\item".toList.isPrefixOf l then (l.drop 5).dropWhile isJsWs else l

/-- `convertQuestion` of the later `FormatConverter` (the `questionNumber`
parameter is only used for logging and is omitted). -/
def convertQuestion (content : Str) : Str :=
  let cleanContent := stripLeadItem content
  let ty := detectQuestionType cleanContent
  let converted :=
    if ty = .choice || ty = .multipleChoice then convertChoiceQuestion cleanContent
    else if ty = .fill then convertFillQuestion cleanContent
    else convertSolutionQuestion cleanContent
  if "\\item".toList.isPrefixOf converted then converted
  else "\\item ".toList ++ converted

/-! ## Preprocessing (later `FormatConverter`) -/

/-- `replaceTopLevelFrac`: protect exponent groups and nested fractions,
replace the remaining `\frac` by `\dfrac`, restore. -/
def replaceTopLevelFrac (content : Str) : Str :=
  let p1 := protectAll exponentSpanM "__PROTECTED_EXPONENT_".toList [] content
  let p2 := protectAll nestedFracSpanM "__PROTECTED_NESTED_".toList [] p1.1
  let r := replaceAll fracM p2.1
  let r1 := restoreAll "__PROTECTED_EXPONENT_".toList p1.2 r
  restoreAll "__PROTECTED_NESTED_".toList p2.2 r1

/-- `replaceLatexCommands`. -/
def replaceLatexCommands (content : Str) : Str :=
  replaceAll mathbfM (replaceTopLevelFrac content)

/-- `preprocessContent` of the later `FormatConverter`. -/
def preprocessContent (content : Str) : Str :=
  let c1 := replaceAll (cmdBlockM "\\title\x7b".toList) content
  let c2 := replaceAll (cmdBlockM "\\author\x7b".toList) c1
  let c3 := replaceAll notesM c2
  let c4 := replaceAll sectionTitleM c3
  let c5 := replaceAll schoolM c4
  let c6 := replaceAll (gzhSentenceM "公众号".toList) c5
  let c7 := replaceAll (gzhSentenceM "（B）公众号".toList) c6
  let c8 := replaceAll (gzhLineM "公众号".toList) c7
  let c9 := replaceAll (gzhLineM "（B）公众号".toList) c8
  let c10 := replaceAll figM c9
  let c11 := replaceAll figGzhM c10
  jsTrim (replaceLatexCommands c11)

/-! ## Segmentation (later `FormatConverter`) -/

/-- Restore the protected formulas inside one segment
(`__LATEX_BLOCK_i__` first, then `__LATEX_INLINE_i__`, both against the one
shared placeholder list). -/
def restoreLatex (phs : List Str) (l : Str) : Str :=
  restoreAll "__LATEX_INLINE_".toList phs
    (restoreAll "__LATEX_BLOCK_".toList phs l)

/-- Shared processing of one part (the text before the first section marker,
or one section body): split at question numbers, keep contents longer than
10 characters when trimmed, restore formulas, and wrap. -/
def processQuestionPart (phs : List Str) (body : Str) : List Str :=
  (splitQ body).2.filterMap (fun p =>
    if 10 < (jsTrim p.2).length then
      let restored := restoreLatex phs (jsTrim p.2)
      if hasSubQ restored then some (convertQuestionWithSubProblems restored)
      else some ("\\item ".toList ++ restored)
    else none)

/-- `splitQuestions` of the later `FormatConverter`. -/
def splitQuestions (content : Str) : List Str :=
  let b := protectAll blockMathSpanM "__LATEX_BLOCK_".toList [] content
  let i := protectAll inlineMathSpanM "__LATEX_INLINE_".toList b.2 b.1
  let phs := i.2
  let s := splitSec i.1
  let q0 :=
    if 10 < (jsTrim s.1).length then processQuestionPart phs (jsTrim s.1) else []
  let qs := s.2.flatMap (fun sec =>
    if 10 < (jsTrim sec.2).length then processQuestionPart phs sec.2 else [])
  let questions := q0 ++ qs
  if questions = [] ∧ 10 < (jsTrim content).length then
    ["\\item ".toList ++ jsTrim content]
  else questions

/-- The per-segment loop of `convertToLatexFormat`: each segment is converted
inside a `try`; a thrown error keeps the original segment, an empty converted
string is dropped (`if (convertedQuestion)`). -/
def convertSegments (conv : Str → Except Str Str) : List Str → List Str
  | [] => []
  | s :: rest =>
    (match conv s with
     | .ok c => if c = [] then [] else [c]
     | .error _ => [s]) ++ convertSegments conv rest

/-- `convertToLatexFormat` of the later `FormatConverter`; the Lean model of
`convertQuestion` is total, so its lifted form never throws. -/
def convertToLatexFormat (markdown : Str) : Str :=
  let converted := preprocessContent markdown
  let segments := splitQuestions converted
  joinNN (convertSegments (fun s => Except.ok (convertQuestion s)) segments)

/-! ## The earlier `FormatConverter` (first class in the file) -/

namespace V1

/-- `splitQuestions` of the earlier `FormatConverter`: if any sub-question
marker `（n）`/`(n)` occurs, the whole trimmed text is one segment; otherwise
split on numbering markers, keep trimmed contents longer than 10 characters,
and fall back to the whole text. -/
def splitQuestions (content : Str) : List Str :=
  if hasSubQ content then [jsTrim content]
  else
    let qs := (splitQ content).2.filterMap (fun p =>
      if 10 < (jsTrim p.2).length then some (jsTrim p.2) else none)
    if qs = [] ∧ 10 < (jsTrim content).length then [jsTrim content]
    else qs

end V1

/-! ## Auxiliary definitions used by the claim theorems -/

/-- Modelled from the claim's words (C8): the number of line-anchored
numbering markers — a digit sequence followed by one of `．.、` at the start
of a line — found in the raw text. -/
def specMarkerCount : Bool → Str → Nat
  | _, [] => 0
  | atLS, c :: t =>
    (if atLS && (qSepCore (c :: t)).isSome then 1 else 0) +
      specMarkerCount (c = '\n') t

def specMarkerCountAll (l : Str) : Nat := specMarkerCount true l

/-- The number of question-number markers the later `splitQuestions` finds
across its section fragments (after formula protection), used for the
segment-count bound. -/
def algMarkerCount (content : Str) : Nat :=
  let b := protectAll blockMathSpanM "__LATEX_BLOCK_".toList [] content
  let i := protectAll inlineMathSpanM "__LATEX_INLINE_".toList b.2 b.1
  let s := splitSec i.1
  (splitQ (jsTrim s.1)).2.length + (s.2.map (fun sec => (splitQ sec.2).2.length)).sum

/-- A converter that throws on the segment `坏` — used to witness the
error-isolation property of the per-segment loop. -/
def c3conv : Str → Except Str Str :=
  fun t => if t = "坏".toList then .error "oops".toList
           else .ok ("\\item ".toList ++ t)

/-- Four short options (5 visible characters each). -/
def c9optsShort : List Str :=
  ["甲乙丙丁戊".toList, "己庚辛壬癸".toList, "子丑寅卯辰".toList, "巳午未申酉".toList]

/-- Four long options (40 visible characters each). -/
def c9optsLong : List Str :=
  List.replicate 4 (List.flatten (List.replicate 5 "甲乙丙丁戊己庚辛".toList))

/-- Character predicates used in the identity and copy lemmas. -/
def noDigit (c : Char) : Bool := !c.isDigit

def noUnderscore (c : Char) : Bool := !(c = '_')

def noBackslash (c : Char) : Bool := !(c = '\\')

/-- Context characters that trigger none of the fraction-protection
scanners: no backslash, caret or underscore. -/
def cleanCtx (c : Char) : Bool := !(c = '\\' || c = '^' || c = '_')

/-- The word-boundary condition after a command name. -/
def headNotWord : Str → Bool
  | [] => true
  | c :: _ => !isWordChar c

/-- The previous-character value after copying `p` (p empty keeps `prev`). -/
def lastOpt (prev : Option Char) (p : Str) : Option Char :=
  match p.getLast? with
  | some c => some c
  | none => prev

/-! ## Structured documents for the protect/restore round trip -/

/-- No dollar sign (the trigger of both math-span scanners). -/
def noDollar (c : Char) : Bool := !(c = '$')

/-- Plain text or math-span characters allowed around/inside the spans. -/
def plainCh (c : Char) : Bool := !(c = '$' || c = '_')

/-- A document is an alternation of plain-text runs, `$…$` inline spans and
`$$…$$` block spans. -/
inductive MathItem where
  | text (s : Str)
  | inline (s : Str)
  | blockM (s : Str)

/-- The rendered source text of a document. -/
def renderDoc : List MathItem → Str
  | [] => []
  | .text s :: r => s ++ renderDoc r
  | .inline s :: r => '$' :: (s ++ '$' :: renderDoc r)
  | .blockM s :: r => '$' :: ('$' :: (s ++ '$' :: ('$' :: renderDoc r)))

/-- Heads that may follow a math span (text run or end). -/
def headIsText : List MathItem → Bool
  | [] => true
  | .text _ :: _ => true
  | _ => false

/-- Heads that may follow a text run (math span or end). -/
def headIsMath : List MathItem → Bool
  | [] => true
  | .text _ :: _ => false
  | _ => true

/-- Well-formedness: text runs are nonempty and `$`/`_`-free, inline bodies
are nonempty and `$`-free, block bodies are `$`-free and do not spell the
inline placeholder stem, and text runs and math spans strictly alternate. -/
def docOK : List MathItem → Bool
  | [] => true
  | .text s :: r => (!(s = [])) && s.all plainCh && headIsMath r && docOK r
  | .inline s :: r => (!(s = [])) && s.all noDollar && headIsText r && docOK r
  | .blockM s :: r =>
      s.all noDollar && !(strHas "__LATEX_INLINE_".toList s) &&
        headIsText r && docOK r

/-- The document after the block-protect pass: block spans are placeholders
(numbered from `k`), everything else still literal. -/
def renderB (k : Nat) : List MathItem → Str
  | [] => []
  | .text s :: r => s ++ renderB k r
  | .inline s :: r => '$' :: (s ++ '$' :: renderB k r)
  | .blockM s :: r =>
      "__LATEX_BLOCK_".toList ++ natDigits k ++ '_' :: '_' :: renderB (k + 1) r

/-- The fully protected document: block placeholders numbered from `bk`,
inline placeholders numbered from `ik`. -/
def renderBoth (bk ik : Nat) : List MathItem → Str
  | [] => []
  | .text s :: r => s ++ renderBoth bk ik r
  | .inline s :: r =>
      "__LATEX_INLINE_".toList ++ natDigits ik ++ '_' :: '_' ::
        renderBoth bk (ik + 1) r
  | .blockM s :: r =>
      "__LATEX_BLOCK_".toList ++ natDigits bk ++ '_' :: '_' ::
        renderBoth (bk + 1) ik r

/-- The document after the block-restore pass: blocks literal again, inline
placeholders (numbered from `ik`) still in place. -/
def renderIOnly (ik : Nat) : List MathItem → Str
  | [] => []
  | .text s :: r => s ++ renderIOnly ik r
  | .inline s :: r =>
      "__LATEX_INLINE_".toList ++ natDigits ik ++ '_' :: '_' ::
        renderIOnly (ik + 1) r
  | .blockM s :: r => '$' :: ('$' :: (s ++ '$' :: ('$' :: renderIOnly ik r)))

/-- The block spans of a document, in order, as matched by the scanner. -/
def blockSpans : List MathItem → List Str
  | [] => []
  | .blockM s :: r => ('$' :: '$' :: s ++ ['$', '$']) :: blockSpans r
  | _ :: r => blockSpans r

/-- The inline spans of a document, in order, as matched by the scanner. -/
def inlineSpans : List MathItem → List Str
  | [] => []
  | .inline s :: r => ('$' :: s ++ ['$']) :: inlineSpans r
  | _ :: r => inlineSpans r

/-- A concrete well-formed document used as the round-trip witness. -/
def c2doc : List MathItem :=
  [.text "题目甲".toList, .inline "x+y".toList, .text "与".toList,
   .blockM "x_1=2".toList, .text "完".toList]

/-! # Theorems -/

set_option maxRecDepth 20000

/-- Any string starting (possibly after adding `\item `) with `\item` passes
the final prefix check of `convertQuestion`. -/
theorem ensureItem_isPrefix (x : Str) :
    "\\item".toList.isPrefixOf
      (if "\\item".toList.isPrefixOf x then x else "\\item ".toList ++ x) = true := by
  split
  · assumption
  · rw [List.isPrefixOf_iff_prefix,
      show "\\item ".toList ++ x = "\\item".toList ++ (' ' :: x) from rfl]
    exact List.prefix_append _ _

/-- C1: for the input `1．已知 $a>0$ ，求 $a$ 的值．`, the later
`convertToLatexFormat` produces exactly one segment, classified as a
solution with no sub-question markers; `removeScoreInfo` leaves its text
unchanged and the assembled output is exactly
`\item 已知 $a>0$ ，求 $a$ 的值．`. -/
theorem C1_end_to_end :
    splitQuestions (preprocessContent "1．已知 $a>0$ ，求 $a$ 的值．".toList) =
      ["\\item 已知 $a>0$ ，求 $a$ 的值．".toList] ∧
    detectQuestionType "已知 $a>0$ ，求 $a$ 的值．".toList = QType.solution ∧
    hasSubQ "已知 $a>0$ ，求 $a$ 的值．".toList = false ∧
    removeScoreInfo "已知 $a>0$ ，求 $a$ 的值．".toList =
      "已知 $a>0$ ，求 $a$ 的值．".toList ∧
    convertToLatexFormat "1．已知 $a>0$ ，求 $a$ 的值．".toList =
      "\\item 已知 $a>0$ ，求 $a$ 的值．".toList := by
  refine ⟨by decide, by decide, by decide, by decide, by decide⟩

/-- C2 counterexample: for the document `$x+y$ 噪声\n1．…`, the inline span
`$x+y$` is issued a placeholder by the protect step of `splitQuestions`, but
the text holding it is discarded (it precedes the first numbering marker), so
the placeholder is never consumed and the span does not occur in any output
segment — refuting "every placeholder issued is consumed during
restoration". -/
theorem C2_counterexample :
    (protectAll inlineMathSpanM "__LATEX_INLINE_".toList
        (protectAll blockMathSpanM "__LATEX_BLOCK_".toList []
          "$x+y$ 噪声\n1．这是一道足够长的题目内容啊".toList).2
        (protectAll blockMathSpanM "__LATEX_BLOCK_".toList []
          "$x+y$ 噪声\n1．这是一道足够长的题目内容啊".toList).1).2 =
      ["$x+y$".toList] ∧
    splitQuestions "$x+y$ 噪声\n1．这是一道足够长的题目内容啊".toList =
      ["\\item 这是一道足够长的题目内容啊".toList] ∧
    strHas "$x+y$".toList
      (joinNN (splitQuestions "$x+y$ 噪声\n1．这是一道足够长的题目内容啊".toList)) =
      false := by
  refine ⟨by decide, by decide, by decide⟩

/-- C3: if the per-segment converter throws on a segment, the loop of
`convertToLatexFormat` emits that segment's original text in its position
and converts all sibling segments normally; the loop itself is total, so no
error propagates. -/
theorem C3_error_isolation (conv : Str → Except Str Str) (l₁ : List Str)
    (s : Str) (l₂ : List Str) (e : Str) (h : conv s = .error e) :
    convertSegments conv (l₁ ++ s :: l₂) =
      convertSegments conv l₁ ++ s :: convertSegments conv l₂ := by
  induction l₁ with
  | nil => simp [convertSegments, h]
  | cons a t ih => simp [convertSegments, ih, List.append_assoc]

/-- Witness for C3 at a concrete failing converter. -/
theorem C3_witness :
    convertSegments c3conv ["甲甲甲".toList, "坏".toList, "乙乙乙".toList] =
      ["\\item 甲甲甲".toList, "坏".toList, "\\item 乙乙乙".toList] :=
  (C3_error_isolation c3conv ["甲甲甲".toList] "坏".toList ["乙乙乙".toList]
    "oops".toList rfl).trans (by decide)

/-- C4: the classifier checks the option pattern first: whenever the
segment (with `[IMAGE_n]`/`[TABLE_n]` placeholders stripped) contains an
A–D option line, the result is multiple-choice exactly when a multi-select
token occurs and choice otherwise — even if a fill marker is also present —
and a fill result is only possible when the option check fails. -/
theorem C4_option_check_first (text : Str) :
    (hasOptionsRe (stripImgTable text) = true →
      detectQuestionType text =
        (if hasMultiToken (stripImgTable text) then QType.multipleChoice
         else QType.choice)) ∧
    (detectQuestionType text = QType.fill →
      hasOptionsRe (stripImgTable text) = false) := by
  by_cases h : hasOptionsRe (stripImgTable text)
  · refine ⟨fun _ => by simp [detectQuestionType, h], fun hf => ?_⟩
    exfalso
    simp only [detectQuestionType, h, if_true] at hf
    split at hf <;> simp_all
  · exact ⟨fun hh => absurd hh (by simp [h]), fun _ => by simpa using h⟩

/-- Witness for C4: a segment with options, an explicit fill marker and a
multi-select token is still classified `multiple-choice`. -/
theorem C4_witness :
    hasBlankMarker
      (stripImgTable "下列正确的是（多选）___\nA．甲甲\nB．乙乙".toList) = true ∧
    detectQuestionType "下列正确的是（多选）___\nA．甲甲\nB．乙乙".toList =
      QType.multipleChoice :=
  ⟨by decide,
    ((C4_option_check_first
      "下列正确的是（多选）___\nA．甲甲\nB．乙乙".toList).1 (by decide)).trans
      (by decide)⟩

/-- C5 counterexample: the segment `已知某个正实数，则这个数的值为．` ends in
`…的值为` and has no option line; it is classified `fill`, but
`convertFillQuestion` returns it unchanged — it contains zero `\underlines`
tokens, not exactly one, because the synthetic-blank check only fires for
text ending in `:`, `：` or `=`. -/
theorem C5_counterexample :
    fillPat4 "已知某个正实数，则这个数的值为．".toList = true ∧
    hasOptionsRe (stripImgTable "已知某个正实数，则这个数的值为．".toList) = false ∧
    detectQuestionType "已知某个正实数，则这个数的值为．".toList = QType.fill ∧
    convertFillQuestion "已知某个正实数，则这个数的值为．".toList =
      "已知某个正实数，则这个数的值为．".toList ∧
    strHas "\\underlines".toList
      (convertFillQuestion "已知某个正实数，则这个数的值为．".toList) = false := by
  refine ⟨by decide, by decide, by decide, by decide, by decide⟩

/-- C6 counterexample: `\frac` occurrences inside an exponent group whose
content has an inner closing brace before the `\frac`, and inside the second
argument of a `\dfrac`, are rewritten to `\dfrac` although the claim says
they are left byte-for-byte unchanged. -/
theorem C6_counterexample :
    replaceTopLevelFrac "x^\x7ba_\x7bb\x7d+\\frac\x7b1\x7d\x7b2\x7d\x7d".toList =
      "x^\x7ba_\x7bb\x7d+\\dfrac\x7b1\x7d\x7b2\x7d\x7d".toList ∧
    replaceTopLevelFrac "\\dfrac\x7ba\x7d\x7b\\frac\x7b1\x7d\x7b2\x7d\x7d".toList =
      "\\dfrac\x7ba\x7d\x7b\\dfrac\x7b1\x7d\x7b2\x7d\x7d".toList ∧
    ¬ replaceTopLevelFrac "x^\x7ba_\x7bb\x7d+\\frac\x7b1\x7d\x7b2\x7d\x7d".toList =
        "x^\x7ba_\x7bb\x7d+\\frac\x7b1\x7d\x7b2\x7d\x7d".toList := by
  refine ⟨by decide, by decide, by decide⟩

/-- C7 counterexample: the later `splitQuestions` does not apply the
whole-text policy: this input contains the sub-question marker `（1）` yet is
still split into two segments. -/
theorem C7_counterexample :
    hasSubQ "1．已知某函数满足条件（1）求函数的解析式表达\n2．这是第二道完整的题目内容啊".toList
      = true ∧
    (splitQuestions
      "1．已知某函数满足条件（1）求函数的解析式表达\n2．这是第二道完整的题目内容啊".toList).length
      = 2 := by
  refine ⟨by decide, by decide⟩

/-- C7 (amended): in the earlier `FormatConverter`, any input containing a
sub-question marker `（n）`/`(n)` is returned whole, as a single trimmed
segment. -/
theorem C7_early_whole_segment (s : Str) (h : hasSubQ s = true) :
    V1.splitQuestions s = [jsTrim s] := by
  simp [V1.splitQuestions, h]

/-- Witness for C7 at a concrete input (with surrounding whitespace, showing
the trimming). -/
theorem C7_witness :
    V1.splitQuestions " 已知（1）求值 ".toList = ["已知（1）求值".toList] :=
  (C7_early_whole_segment " 已知（1）求值 ".toList (by decide)).trans (by decide)

/-- C8 counterexample: a marker-free text of trimmed length greater than 10
yields one fallback segment, exceeding the zero line-anchored numbering
markers found in the text — the claimed upper bound contradicts the claimed
lower bound on marker-free inputs. -/
theorem C8_counterexample :
    specMarkerCountAll "这是一段没有题号的长文本内容啊".toList = 0 ∧
    (splitQuestions "这是一段没有题号的长文本内容啊".toList).length = 1 ∧
    10 < (jsTrim "这是一段没有题号的长文本内容啊".toList).length := by
  refine ⟨by decide, by decide, by decide⟩

/-- One processed part never yields more segments than the question markers
found in it. -/
theorem processQuestionPart_length_le (phs : List Str) (body : Str) :
    (processQuestionPart phs body).length ≤ (splitQ body).2.length :=
  List.length_filterMap_le _ _

/-- The part before the first section marker obeys the marker bound. -/
theorem firstPart_length_le (phs : List Str) (pre : Str) :
    (if 10 < (jsTrim pre).length then processQuestionPart phs (jsTrim pre)
     else []).length ≤ (splitQ (jsTrim pre)).2.length := by
  split
  · exact processQuestionPart_length_le phs (jsTrim pre)
  · simp

/-- The section bodies obey the summed marker bound. -/
theorem sections_length_le (phs : List Str) (secs : List (Str × Str)) :
    (secs.flatMap (fun sec =>
      if 10 < (jsTrim sec.2).length then processQuestionPart phs sec.2
      else [])).length ≤
    (secs.map (fun sec => (splitQ sec.2).2.length)).sum := by
  induction secs with
  | nil => simp
  | cons a t ih =>
    simp only [List.flatMap_cons, List.length_append, List.map_cons, List.sum_cons]
    refine Nat.add_le_add ?_ ih
    split
    · exact processQuestionPart_length_le phs a.2
    · simp

/-- Abstract form of the segment-count bound: the fallback keeps the count at
1, otherwise the two parts are bounded by their marker counts. -/
theorem splitQ_bound_core (q0 qs : List Str) (c1 c2 : Nat) (fallback : Str)
    (long : Prop) [Decidable long]
    (h1 : q0.length ≤ c1) (h2 : qs.length ≤ c2) :
    (if q0 ++ qs = [] ∧ long then [fallback] else q0 ++ qs).length ≤
      max 1 (c1 + c2) ∧
    (long → 1 ≤ (if q0 ++ qs = [] ∧ long then [fallback] else q0 ++ qs).length) := by
  constructor
  · split
    · simp
    · refine le_trans ?_ (le_max_right 1 _)
      rw [List.length_append]
      exact Nat.add_le_add h1 h2
  · intro hl
    split
    · simp
    · rename_i hcond
      have hne : ¬(q0 ++ qs = []) := fun hnil => hcond ⟨hnil, hl⟩
      exact List.length_pos.mpr hne

/-- C8 (amended): the number of segments returned by the later
`splitQuestions` is at most `max 1 m`, where `m` is the number of
question-number markers the splitter finds across its section fragments
(after formula protection), and is at least 1 whenever the trimmed input is
longer than 10 characters. -/
theorem C8_segment_count (content : Str) :
    (splitQuestions content).length ≤ max 1 (algMarkerCount content) ∧
    (10 < (jsTrim content).length → 1 ≤ (splitQuestions content).length) := by
  simp only [splitQuestions, algMarkerCount]
  exact splitQ_bound_core _ _ _ _ _ _
    (firstPart_length_le _ _) (sections_length_le _ _)

/-- Witness for C8 at a concrete input with one marker. -/
theorem C8_witness :
    (splitQuestions "1．这是一道足够长的题目内容啊".toList).length ≤
      max 1 (algMarkerCount "1．这是一道足够长的题目内容啊".toList) ∧
    1 ≤ (splitQuestions "1．这是一道足够长的题目内容啊".toList).length :=
  ⟨(C8_segment_count "1．这是一道足够长的题目内容啊".toList).1,
   (C8_segment_count "1．这是一道足够长的题目内容啊".toList).2 (by decide)⟩

/-- C9: `calculateOptimalColumns` implements the claimed table on the
average visible option length (math spans and LaTeX commands stripped):
`avg > 30 → min n 2`, `avg > 15 → min n 3`, `avg > 8 → min n 4`, otherwise
`min n 6`. -/
theorem C9_column_table (options : List Str) (h : options ≠ []) :
    calculateOptimalColumns options =
      (if (30 : ℚ) <
          (((options.map cleanOptionLength).sum : ℚ) / (options.length : ℚ)) then
        min options.length 2
      else if (15 : ℚ) <
          (((options.map cleanOptionLength).sum : ℚ) / (options.length : ℚ)) then
        min options.length 3
      else if (8 : ℚ) <
          (((options.map cleanOptionLength).sum : ℚ) / (options.length : ℚ)) then
        min options.length 4
      else min options.length 6) := by
  match options with
  | [] => exact absurd rfl h
  | [a] =>
    have : calculateOptimalColumns [a] = 1 := rfl
    rw [this]
    split_ifs <;> simp
  | a :: b :: t =>
    have hq : (0 : ℚ) < ((a :: b :: t).length : ℚ) := by
      exact_mod_cast Nat.succ_pos _
    have k30 : ((30 : ℚ) <
        ((((a :: b :: t).map cleanOptionLength).sum : ℚ) /
          ((a :: b :: t).length : ℚ))) ↔
        30 * (a :: b :: t).length < ((a :: b :: t).map cleanOptionLength).sum := by
      rw [lt_div_iff₀ hq]; norm_cast
    have k15 : ((15 : ℚ) <
        ((((a :: b :: t).map cleanOptionLength).sum : ℚ) /
          ((a :: b :: t).length : ℚ))) ↔
        15 * (a :: b :: t).length < ((a :: b :: t).map cleanOptionLength).sum := by
      rw [lt_div_iff₀ hq]; norm_cast
    have k8 : ((8 : ℚ) <
        ((((a :: b :: t).map cleanOptionLength).sum : ℚ) /
          ((a :: b :: t).length : ℚ))) ↔
        8 * (a :: b :: t).length < ((a :: b :: t).map cleanOptionLength).sum := by
      rw [lt_div_iff₀ hq]; norm_cast
    simp only [calculateOptimalColumns]
    by_cases h30 : 30 * (a :: b :: t).length < ((a :: b :: t).map cleanOptionLength).sum
    · rw [if_pos h30, if_pos (k30.mpr h30)]
    · rw [if_neg h30, if_neg (fun hc => h30 (k30.mp hc))]
      by_cases h15 : 15 * (a :: b :: t).length < ((a :: b :: t).map cleanOptionLength).sum
      · rw [if_pos h15, if_pos (k15.mpr h15)]
      · rw [if_neg h15, if_neg (fun hc => h15 (k15.mp hc))]
        by_cases h8 : 8 * (a :: b :: t).length < ((a :: b :: t).map cleanOptionLength).sum
        · rw [if_pos h8, if_pos (k8.mpr h8)]
        · rw [if_neg h8, if_neg (fun hc => h8 (k8.mp hc))]

/-- Witness for C9: four ~5-character options give 4 columns, four
~40-character options give 2 columns. -/
theorem C9_witness :
    calculateOptimalColumns c9optsShort = 4 ∧
    calculateOptimalColumns c9optsLong = 2 := by
  constructor
  · rw [C9_column_table c9optsShort (by decide),
      show (c9optsShort.map cleanOptionLength).sum = 20 from by decide,
      show c9optsShort.length = 4 from by decide]
    norm_num
  · rw [C9_column_table c9optsLong (by decide),
      show (c9optsLong.map cleanOptionLength).sum = 160 from by decide,
      show c9optsLong.length = 4 from by decide]
    norm_num

/-! ### Generic no-match lemmas for the replace passes -/

/-- Characters of a sublist inherit `all`. -/
theorem all_of_subset {p : Char → Bool} {l m : Str} (hl : l.all p = true)
    (hsub : m ⊆ l) : m.all p = true := by
  rw [List.all_eq_true] at hl ⊢
  exact fun x hx => hl x (hsub hx)

/-- `all` goes through `drop`. -/
theorem all_drop {p : Char → Bool} {l : Str} (n : Nat) (hl : l.all p = true) :
    (l.drop n).all p = true :=
  all_of_subset hl (List.drop_subset n l)

/-- A `takeWhile` under a predicate everywhere false is empty. -/
theorem takeWhile_nil_of_all {q p : Char → Bool} {l : Str}
    (h : l.all p = true) (hpq : ∀ c, p c = true → q c = false) :
    l.takeWhile q = [] := by
  match l with
  | [] => rfl
  | c :: t =>
    have : q c = false := hpq c (by simp [List.all_cons] at h; exact h.1)
    simp [List.takeWhile_cons, this]

/-- A prefix whose characters are not all in `l` cannot occur. -/
theorem isPrefixOf_false_of_not_mem {pat l : Str} {c : Char}
    (hc : c ∈ pat) (hl : c ∉ l) : pat.isPrefixOf l = false := by
  by_contra h
  have hp : pat.isPrefixOf l = true := by
    cases hh : pat.isPrefixOf l
    · exact absurd hh h
    · rfl
  exact hl ((List.isPrefixOf_iff_prefix.mp hp).subset hc)

/-- If `strHas pat l` then every character of `pat` occurs in `l`
(for nonempty patterns). -/
theorem mem_of_strHas {pat l : Str} {c : Char} (h : strHas pat l = true)
    (hc : c ∈ pat) : c ∈ l := by
  induction l with
  | nil =>
    simp only [strHas] at h
    rw [List.isPrefixOf_iff_prefix, List.prefix_nil] at h
    subst h; cases hc
  | cons a t ih =>
    simp only [strHas, Bool.or_eq_true] at h
    rcases h with h | h
    · exact (List.isPrefixOf_iff_prefix.mp h).subset hc
    · exact List.mem_cons_of_mem a (ih h)

/-- If the matcher never fires on strings whose characters satisfy `p`, one
replace pass is the identity. -/
theorem replaceGo_id_of_all (m : Matcher) (p : Char → Bool)
    (hm : ∀ prev c t, (c :: t).all p = true → m prev (c :: t) = none) :
    ∀ (fuel : Nat) (prev : Option Char) (l : Str), l.all p = true →
      replaceGo m fuel prev l = l := by
  intro fuel
  induction fuel with
  | zero => intro prev l _; rfl
  | succ f ih =>
    intro prev l hl
    match l with
    | [] => rfl
    | c :: t =>
      have ht : t.all p = true := by
        simp only [List.all_cons, Bool.and_eq_true] at hl; exact hl.2
      have step : replaceGo m (f + 1) prev (c :: t) =
          c :: replaceGo m f (some c) t := by
        simp only [replaceGo, hm prev c t hl]
      rw [step, ih (some c) t ht]

/-- `replaceAll` version of the no-match identity. -/
theorem replaceAll_id_of_all (m : Matcher) (p : Char → Bool)
    (hm : ∀ prev c t, (c :: t).all p = true → m prev (c :: t) = none)
    (l : Str) (hl : l.all p = true) : replaceAll m l = l :=
  replaceGo_id_of_all m p hm (l.length + 1) none l hl

/-! ### Copy lemmas: the scanners pass over text free of their trigger
characters, spending one unit of fuel per character -/

theorem lastOpt_cons (prev : Option Char) (c : Char) (p : Str) :
    lastOpt prev (c :: p) = lastOpt (some c) p := by
  match p with
  | [] => rfl
  | d :: t =>
    simp only [lastOpt, List.getLast?_cons_cons]
    cases h : (d :: t).getLast? with
    | none =>
      have : (d :: t) = [] := by
        simpa using List.getLast?_eq_none_iff.mp h
      cases this
    | some x => rfl

/-- A replace pass copies a prefix on which the matcher never fires. -/
theorem replaceGo_copy (m : Matcher) (p : Char → Bool)
    (hm : ∀ prev c t, p c = true → m prev (c :: t) = none) :
    ∀ (pre : Str), pre.all p = true → ∀ (k : Nat) (prev : Option Char) (r : Str),
      replaceGo m (pre.length + k) prev (pre ++ r) =
        pre ++ replaceGo m k (lastOpt prev pre) r := by
  intro pre
  induction pre with
  | nil => intro _ k prev r; simp [lastOpt]
  | cons c t ih =>
    intro hpre k prev r
    have hc : p c = true := by
      simp only [List.all_cons, Bool.and_eq_true] at hpre; exact hpre.1
    have ht : t.all p = true := by
      simp only [List.all_cons, Bool.and_eq_true] at hpre; exact hpre.2
    have hlen : (c :: t).length + k = (t.length + k) + 1 := by
      simp [Nat.add_comm, Nat.add_assoc, Nat.add_left_comm]
    rw [hlen]
    have step : replaceGo m ((t.length + k) + 1) prev ((c :: t) ++ r) =
        c :: replaceGo m (t.length + k) (some c) (t ++ r) := by
      simp only [List.cons_append, replaceGo, hm prev c (t ++ r) hc]
    rw [step, ih ht k (some c) r, lastOpt_cons]
    rfl

theorem protectGo_nil (sm : SpanMatcher) (tok : Str) (fuel : Nat)
    (acc : List Str) : protectGo sm tok fuel acc [] = ([], acc) := by
  cases fuel <;> rfl

/-- A protect pass copies a prefix on which the span matcher never fires. -/
theorem protectGo_copy (sm : SpanMatcher) (tok : Str) (p : Char → Bool)
    (hm : ∀ c t, p c = true → sm (c :: t) = none) :
    ∀ (pre : Str), pre.all p = true → ∀ (k : Nat) (acc : List Str) (r : Str),
      protectGo sm tok (pre.length + k) acc (pre ++ r) =
        (pre ++ (protectGo sm tok k acc r).1, (protectGo sm tok k acc r).2) := by
  intro pre
  induction pre with
  | nil => intro _ k acc r; simp
  | cons c t ih =>
    intro hpre k acc r
    have hc : p c = true := by
      simp only [List.all_cons, Bool.and_eq_true] at hpre; exact hpre.1
    have ht : t.all p = true := by
      simp only [List.all_cons, Bool.and_eq_true] at hpre; exact hpre.2
    have hlen : (c :: t).length + k = (t.length + k) + 1 := by
      simp [Nat.add_comm, Nat.add_assoc, Nat.add_left_comm]
    rw [hlen]
    have step : protectGo sm tok ((t.length + k) + 1) acc ((c :: t) ++ r) =
        (c :: (protectGo sm tok (t.length + k) acc (t ++ r)).1,
          (protectGo sm tok (t.length + k) acc (t ++ r)).2) := by
      simp only [List.cons_append, protectGo, hm c (t ++ r) hc]
    rw [step, ih ht k acc r]
    rfl

/-- A protect pass is the identity (issuing no placeholders) on text on
which the span matcher never fires. -/
theorem protectGo_id_of_all (sm : SpanMatcher) (tok : Str) (p : Char → Bool)
    (hm : ∀ c t, p c = true → sm (c :: t) = none)
    (l : Str) (hl : l.all p = true) (k : Nat) (acc : List Str) :
    protectGo sm tok (l.length + k) acc l = (l, acc) := by
  have h := protectGo_copy sm tok p hm l hl k acc []
  rw [List.append_nil] at h
  rw [h, protectGo_nil, List.append_nil]

theorem restoreGo_nil (tok : Str) (phs : List Str) (fuel : Nat) :
    restoreGo tok phs fuel [] = [] := by
  cases fuel <;> rfl

/-- A restore pass copies a prefix on which the token never matches. -/
theorem restoreGo_copy (tok : Str) (phs : List Str) (p : Char → Bool)
    (hm : ∀ c t, p c = true → tryToken tok phs (c :: t) = none) :
    ∀ (pre : Str), pre.all p = true → ∀ (k : Nat) (r : Str),
      restoreGo tok phs (pre.length + k) (pre ++ r) =
        pre ++ restoreGo tok phs k r := by
  intro pre
  induction pre with
  | nil => intro _ k r; simp
  | cons c t ih =>
    intro hpre k r
    have hc : p c = true := by
      simp only [List.all_cons, Bool.and_eq_true] at hpre; exact hpre.1
    have ht : t.all p = true := by
      simp only [List.all_cons, Bool.and_eq_true] at hpre; exact hpre.2
    have hlen : (c :: t).length + k = (t.length + k) + 1 := by
      simp [Nat.add_comm, Nat.add_assoc, Nat.add_left_comm]
    rw [hlen]
    have step : restoreGo tok phs ((t.length + k) + 1) ((c :: t) ++ r) =
        c :: restoreGo tok phs (t.length + k) (t ++ r) := by
      simp only [List.cons_append, restoreGo, hm c (t ++ r) hc]
    rw [step, ih ht k r]
    rfl

/-- A restore pass is the identity on text on which the token never
matches. -/
theorem restoreGo_id_of_all (tok : Str) (phs : List Str) (p : Char → Bool)
    (hm : ∀ c t, p c = true → tryToken tok phs (c :: t) = none)
    (l : Str) (hl : l.all p = true) (k : Nat) :
    restoreGo tok phs (l.length + k) l = l := by
  have h := restoreGo_copy tok phs p hm l hl k []
  rw [List.append_nil] at h
  rw [h, restoreGo_nil, List.append_nil]

/-- A placeholder token never matches at a non-underscore character. -/
theorem tryToken_none_of_head (tokTail : Str) (phs : List Str) (c : Char)
    (t : Str) (hc : ¬(c = '_')) :
    tryToken ('_' :: tokTail) phs (c :: t) = none := by
  have : ('_' :: tokTail).isPrefixOf (c :: t) = false := by
    simp only [List.isPrefixOf, Bool.and_eq_false_iff]
    left
    simpa using fun h => hc h.symm
  simp [tryToken, this]

theorem replaceGo_nil (m : Matcher) (fuel : Nat) (prev : Option Char) :
    replaceGo m fuel prev [] = [] := by
  cases fuel <;> rfl

/-- A full replace pass over clean context, one match, clean context. -/
theorem replaceAll_single (m : Matcher) (p : Char → Bool)
    (hm : ∀ prev c t, p c = true → m prev (c :: t) = none)
    (pre : Str) (c : Char) (mid : Str) (rep q : Str)
    (hpre : pre.all p = true) (hq : q.all p = true)
    (hmatch : ∀ prev, m prev (c :: (mid ++ q)) = some (rep, c :: mid, q)) :
    replaceAll m (pre ++ (c :: mid) ++ q) = pre ++ rep ++ q := by
  have hlen : (pre ++ (c :: mid) ++ q).length + 1 =
      pre.length + ((c :: mid).length + q.length + 1) := by
    simp [Nat.add_comm, Nat.add_assoc, Nat.add_left_comm]
  rw [replaceAll, hlen, List.append_assoc,
    replaceGo_copy m p hm pre hpre _ none _]
  have step : replaceGo m ((c :: mid).length + q.length + 1)
      (lastOpt none pre) ((c :: mid) ++ q) =
      rep ++ replaceGo m ((c :: mid).length + q.length)
        ((c :: mid).getLast? <|> lastOpt none pre) q := by
    simp only [List.cons_append, replaceGo, hmatch (lastOpt none pre)]
  rw [step]
  have hq' : replaceGo m ((c :: mid).length + q.length)
      ((c :: mid).getLast? <|> lastOpt none pre) q = q := by
    have h2 : (c :: mid).length + q.length = q.length + (c :: mid).length := by
      simp [Nat.add_comm]
    rw [h2]
    have := replaceGo_copy m p hm q hq (c :: mid).length
      ((c :: mid).getLast? <|> lastOpt none pre) []
    rw [List.append_nil] at this
    rw [this, replaceGo_nil, List.append_nil]
  rw [hq', List.append_assoc]

/-- A full protect pass over clean context, one span, clean context. -/
theorem protectAll_single (sm : SpanMatcher) (tok : Str) (p : Char → Bool)
    (hm : ∀ c t, p c = true → sm (c :: t) = none)
    (pre : Str) (c : Char) (mid : Str) (q : Str) (acc : List Str)
    (hpre : pre.all p = true) (hq : q.all p = true)
    (hmatch : sm (c :: (mid ++ q)) = some (c :: mid, q)) :
    protectAll sm tok acc (pre ++ (c :: mid) ++ q) =
      (pre ++ (tok ++ natDigits acc.length ++ ['_', '_']) ++ q,
        acc ++ [c :: mid]) := by
  have hlen : (pre ++ (c :: mid) ++ q).length + 1 =
      pre.length + ((c :: mid).length + q.length + 1) := by
    simp [Nat.add_comm, Nat.add_assoc, Nat.add_left_comm]
  rw [protectAll, hlen, List.append_assoc,
    protectGo_copy sm tok p hm pre hpre _ acc _]
  have step : protectGo sm tok ((c :: mid).length + q.length + 1) acc
      ((c :: mid) ++ q) =
      ((tok ++ natDigits acc.length ++ ['_', '_']) ++
        (protectGo sm tok ((c :: mid).length + q.length)
          (acc ++ [c :: mid]) q).1,
        (protectGo sm tok ((c :: mid).length + q.length)
          (acc ++ [c :: mid]) q).2) := by
    simp only [List.cons_append, protectGo, hmatch]
  rw [step]
  have hq' : protectGo sm tok ((c :: mid).length + q.length)
      (acc ++ [c :: mid]) q = (q, acc ++ [c :: mid]) := by
    have h2 : (c :: mid).length + q.length = q.length + (c :: mid).length := by
      simp [Nat.add_comm]
    rw [h2]
    exact protectGo_id_of_all sm tok p hm q hq _ _
  rw [hq']
  simp [List.append_assoc]

/-- A full restore pass over clean context, one token, clean context. -/
theorem restoreAll_single (tok : Str) (phs : List Str) (p : Char → Bool)
    (hm : ∀ c t, p c = true → tryToken tok phs (c :: t) = none)
    (pre : Str) (c : Char) (mid : Str) (rep q : Str)
    (hpre : pre.all p = true) (hq : q.all p = true)
    (hmatch : tryToken tok phs (c :: (mid ++ q)) = some (rep, q)) :
    restoreAll tok phs (pre ++ (c :: mid) ++ q) = pre ++ rep ++ q := by
  have hlen : (pre ++ (c :: mid) ++ q).length + 1 =
      pre.length + ((c :: mid).length + q.length + 1) := by
    simp [Nat.add_comm, Nat.add_assoc, Nat.add_left_comm]
  rw [restoreAll, hlen, List.append_assoc,
    restoreGo_copy tok phs p hm pre hpre _ _]
  have step : restoreGo tok phs ((c :: mid).length + q.length + 1)
      ((c :: mid) ++ q) =
      rep ++ restoreGo tok phs ((c :: mid).length + q.length) q := by
    simp only [List.cons_append, restoreGo, hmatch]
  rw [step]
  have hq' : restoreGo tok phs ((c :: mid).length + q.length) q = q := by
    have h2 : (c :: mid).length + q.length = q.length + (c :: mid).length := by
      simp [Nat.add_comm]
    rw [h2]
    exact restoreGo_id_of_all tok phs p hm q hq _
  rw [hq', List.append_assoc]

/-! ### The score and blank matchers never fire on digit-free resp.
underscore-free text -/

theorem jsTrim_subset (l : Str) : jsTrim l ⊆ l := by
  intro x hx
  simp only [jsTrim, List.mem_reverse] at hx
  exact List.dropWhile_subset _ (List.mem_reverse.mp (List.dropWhile_subset _ hx))

theorem scoreParen_none {l : Str} (h : l.all noDigit = true) :
    scoreParen l = none := by
  match l with
  | [] => rfl
  | c :: t =>
    simp only [scoreParen]
    split
    · have ht : t.all noDigit = true := by
        simp only [List.all_cons, Bool.and_eq_true] at h; exact h.2
      have hds : (t.drop (t.takeWhile isJsWs).length).takeWhile Char.isDigit = [] :=
        takeWhile_nil_of_all (all_drop _ ht)
          (fun c hc => by simpa [noDigit] using hc)
      simp [hds]
    · rfl

theorem scoreFullM_none (prev : Option Char) (c : Char) (t : Str)
    (h : (c :: t).all noDigit = true) : scoreFullM prev (c :: t) = none := by
  simp only [scoreFullM, plainM]
  split
  · have ht : t.all noDigit = true := by
      simp only [List.all_cons, Bool.and_eq_true] at h; exact h.2
    have hds : ((t.drop 5).drop
        ((t.drop 5).takeWhile isJsWs).length).takeWhile Char.isDigit = [] :=
      takeWhile_nil_of_all (all_drop _ (all_drop _ ht))
        (fun c hc => by simpa [noDigit] using hc)
    split
    · rfl
    · rename_i hneg
      exact absurd hds hneg
  · rfl

theorem scoreParenM_none (prev : Option Char) (c : Char) (t : Str)
    (h : (c :: t).all noDigit = true) : scoreParenM prev (c :: t) = none := by
  simp [scoreParenM, plainM, scoreParen_none h]

theorem scoreBareM_none (prev : Option Char) (c : Char) (t : Str)
    (h : (c :: t).all noDigit = true) : scoreBareM prev (c :: t) = none := by
  simp only [scoreBareM]
  have hds : (c :: t).takeWhile Char.isDigit = [] :=
    takeWhile_nil_of_all h (fun c hc => by simpa [noDigit] using hc)
  split
  · simp [hds]
  · rfl

theorem scoreLeadM_none (prev : Option Char) (c : Char) (t : Str)
    (h : (c :: t).all noDigit = true) : scoreLeadM prev (c :: t) = none := by
  simp only [scoreLeadM]
  have hds : (c :: t).takeWhile Char.isDigit = [] :=
    takeWhile_nil_of_all h (fun c hc => by simpa [noDigit] using hc)
  split
  · simp [hds]
  · rfl

theorem scoreTrailM_none (prev : Option Char) (c : Char) (t : Str)
    (h : (c :: t).all noDigit = true) : scoreTrailM prev (c :: t) = none := by
  simp only [scoreTrailM, plainM]
  rw [scoreParen_none (all_drop _ h)]

theorem scoreMidM_none (prev : Option Char) (c : Char) (t : Str)
    (h : (c :: t).all noDigit = true) : scoreMidM prev (c :: t) = none := by
  simp only [scoreMidM, plainM]
  rw [scoreParen_none (all_drop _ h)]

theorem bracketTagM_none (head : Str) (prev : Option Char) (c : Char) (t : Str)
    (h : (c :: t).all noDigit = true) : bracketTagM head prev (c :: t) = none := by
  simp only [bracketTagM, plainM]
  split
  · have hds : ((c :: t).drop head.length).takeWhile Char.isDigit = [] :=
      takeWhile_nil_of_all (all_drop _ h)
        (fun c hc => by simpa [noDigit] using hc)
    simp [hds]
  · rfl

/-- `removeScoreInfo` is the identity on trimmed, digit-free text. -/
theorem removeScoreInfo_id {s : Str} (hd : s.all noDigit = true)
    (ht : jsTrim s = s) : removeScoreInfo s = s := by
  simp only [removeScoreInfo, ht,
    replaceAll_id_of_all _ noDigit (scoreFullM_none) s hd,
    replaceAll_id_of_all _ noDigit (scoreParenM_none) s hd,
    replaceAll_id_of_all _ noDigit (scoreBareM_none) s hd,
    replaceAll_id_of_all _ noDigit (scoreLeadM_none) s hd,
    replaceAll_id_of_all _ noDigit (scoreTrailM_none) s hd,
    replaceAll_id_of_all _ noDigit (scoreMidM_none) s hd]

/-- `stripImgTable` is the identity on digit-free text. -/
theorem stripImgTable_id {s : Str} (hd : s.all noDigit = true) :
    stripImgTable s = s := by
  simp only [stripImgTable,
    replaceAll_id_of_all _ noDigit (bracketTagM_none _) s hd]

theorem fillBlockRunM_none (prev : Option Char) (c : Char) (t : Str)
    (h : (c :: t).all noUnderscore = true) :
    fillBlockRunM prev (c :: t) = none := by
  simp only [fillBlockRunM, plainM]
  split
  · rename_i t2 heq
    have ht2 : t2.all noUnderscore = true := by
      have := h; rw [heq] at this
      simp only [List.all_cons, Bool.and_eq_true] at this
      exact this.2.2
    have hu : t2.takeWhile (fun x => x = '_') = [] :=
      takeWhile_nil_of_all ht2
        (fun c hc => by
          simp only [noUnderscore, Bool.not_eq_true'] at hc
          simpa using hc)
    simp [hu]
  · rfl

theorem fillLiteralM_none (pat : Str) (hpat : '_' ∈ pat)
    (prev : Option Char) (c : Char) (t : Str)
    (h : (c :: t).all noUnderscore = true) :
    fillLiteralM pat prev (c :: t) = none := by
  have hmem : '_' ∉ c :: t := by
    intro hx
    have := (List.all_eq_true.mp h) _ hx
    simp [noUnderscore] at this
  simp [fillLiteralM, plainM, isPrefixOf_false_of_not_mem hpat hmem]

theorem fillInlineRunM_none (prev : Option Char) (c : Char) (t : Str)
    (h : (c :: t).all noUnderscore = true) :
    fillInlineRunM prev (c :: t) = none := by
  simp only [fillInlineRunM, plainM]
  split
  · rename_i t2 heq
    have ht2 : t2.all noUnderscore = true := by
      have := h; rw [heq] at this
      simp only [List.all_cons, Bool.and_eq_true] at this
      exact this.2
    have hu : t2.takeWhile (fun x => x = '_') = [] :=
      takeWhile_nil_of_all ht2
        (fun c hc => by
          simp only [noUnderscore, Bool.not_eq_true'] at hc
          simpa using hc)
    simp [hu]
  · rfl

theorem fillBareRunM_none (prev : Option Char) (c : Char) (t : Str)
    (h : (c :: t).all noUnderscore = true) :
    fillBareRunM prev (c :: t) = none := by
  have ht : t.all noUnderscore = true := by
    simp only [List.all_cons, Bool.and_eq_true] at h; exact h.2
  have hu : t.takeWhile (fun x => x = '_') = [] :=
    takeWhile_nil_of_all ht
      (fun c hc => by
        simp only [noUnderscore, Bool.not_eq_true'] at hc
        simpa using hc)
  have hc : ¬(c = '_') := by
    simp only [List.all_cons, Bool.and_eq_true, noUnderscore,
      Bool.not_eq_true'] at h
    simpa using h.1
  simp only [fillBareRunM]
  split
  · rfl
  · split
    · rename_i t2 heq
      injection heq with h1 h2
      subst h2
      simp [hu]
    · rename_i x heq
      injection heq with h1 h2
      exact absurd h1 hc
    · rfl

/-- C5 (amended): a segment whose text ends in `…的值为` (optionally followed
by trailing punctuation) and has no A–D option line is classified `fill`;
but `convertFillQuestion` appends a synthetic blank only for text ending in
`:`/`：`/`=`, so a trimmed such segment free of digits, underscores and
backslashes is returned unchanged, containing no `\underlines` token. -/
theorem C5_fill_detect_no_blank (s : Str)
    (h1 : fillPat4 s = true)
    (h2 : hasOptionsRe (stripImgTable s) = false)
    (h3 : s.all noDigit = true)
    (h4 : s.all noUnderscore = true)
    (h5 : s.all noBackslash = true)
    (h6 : jsTrim s = s) :
    detectQuestionType s = QType.fill ∧
    convertFillQuestion s = s ∧
    strHas "\\underlines".toList (convertFillQuestion s) = false := by
  have hstrip : stripImgTable s = s := stripImgTable_id h3
  have hA : detectQuestionType s = QType.fill := by
    have h2x : hasOptionsRe s = false := by rw [hstrip] at h2; exact h2
    by_cases hb : hasBlankMarker s
    · simp [detectQuestionType, hstrip, h2x, hb]
    · simp [detectQuestionType, hstrip, h2x, hb, anyFillPattern, h1]
  have hno : strHas "\\underlines".toList s = false := by
    cases hx : strHas "\\underlines".toList s
    · rfl
    · exfalso
      have hmem : '\\' ∈ s := mem_of_strHas hx (by decide)
      have := (List.all_eq_true.mp h5) _ hmem
      simp [noBackslash] at this
  have hends : endsColonEq s = false := by
    obtain ⟨rest, hrest⟩ := List.isPrefixOf_iff_prefix.mp h1
    simp only [endsColonEq, ← hrest]
    rfl
  have hscore : removeScoreInfo (jsTrim s) = s := by
    rw [h6]; exact removeScoreInfo_id h3 h6
  have hfill : convertFillQuestion s = s := by
    simp only [convertFillQuestion, hscore,
      replaceAll_id_of_all _ noUnderscore fillBlockRunM_none s h4,
      replaceAll_id_of_all _ noUnderscore
        (fillLiteralM_none "$$\\_\\_\\_\\_$$".toList (by decide)) s h4,
      replaceAll_id_of_all _ noUnderscore fillInlineRunM_none s h4,
      replaceAll_id_of_all _ noUnderscore
        (fillLiteralM_none "$\\_\\_\\_\\_$".toList (by decide)) s h4,
      replaceAll_id_of_all _ noUnderscore fillBareRunM_none s h4,
      hno, hends]
    simp
  exact ⟨hA, hfill, by rw [hfill]; exact hno⟩

/-- Witness for C5 at a concrete `…的值为` segment (without final
punctuation, exercising the optional-punctuation part of the shape). -/
theorem C5_witness :
    detectQuestionType "某个函数在该点处取得的值为".toList = QType.fill ∧
    convertFillQuestion "某个函数在该点处取得的值为".toList =
      "某个函数在该点处取得的值为".toList ∧
    strHas "\\underlines".toList
      (convertFillQuestion "某个函数在该点处取得的值为".toList) = false :=
  C5_fill_detect_no_blank "某个函数在该点处取得的值为".toList
    (by decide) (by decide) (by decide) (by decide) (by decide) (by decide)

/-! ### Decimal digits of placeholder indices -/

theorem digitChar_isDigit (k : Nat) (h : k < 10) :
    (digitChar k).isDigit = true := by
  interval_cases k <;> decide

theorem digitChar_toNat (k : Nat) (h : k < 10) :
    (digitChar k).toNat = 48 + k := by
  interval_cases k <;> decide

theorem natDigitsAux_ne_nil (fuel n : Nat) (h : n < fuel) :
    natDigitsAux fuel n ≠ [] := by
  match fuel with
  | f + 1 =>
    simp only [natDigitsAux]
    split
    · simp
    · simp

theorem natDigitsAux_all_digit (fuel : Nat) :
    ∀ n, (natDigitsAux fuel n).all Char.isDigit = true := by
  induction fuel with
  | zero => intro n; rfl
  | succ f ih =>
    intro n
    simp only [natDigitsAux]
    split
    · rename_i h
      simp [digitChar_isDigit n h]
    · rename_i h
      rw [List.all_append, Bool.and_eq_true]
      exact ⟨ih (n / 10),
        by simp [digitChar_isDigit (n % 10) (Nat.mod_lt _ (by omega))]⟩

/-- When the next character is not a digit, the parser stops. -/
theorem parseNatAux_stop (r : Str) (acc : Nat)
    (hr : ∀ c t, r = c :: t → c.isDigit = false) :
    parseNatAux r acc = (acc, r) := by
  match r with
  | [] => rfl
  | c :: t => simp [parseNatAux, hr c t rfl]

/-- Parsing the decimal digits of `n` followed by anything accumulates `n`. -/
theorem parseNatAux_digits (fuel : Nat) :
    ∀ n, n < fuel → ∀ (r : Str) (acc : Nat),
      parseNatAux (natDigitsAux fuel n ++ r) acc =
        parseNatAux r (acc * 10 ^ (natDigitsAux fuel n).length + n) := by
  induction fuel with
  | zero => intro n hn; omega
  | succ f ih =>
    intro n hn r acc
    by_cases h : n < 10
    · have hstep : parseNatAux (digitChar n :: r) acc =
          parseNatAux r (acc * 10 + ((digitChar n).toNat - 48)) := by
        simp [parseNatAux, digitChar_isDigit n h]
      simp only [natDigitsAux, if_pos h, List.singleton_append, hstep,
        digitChar_toNat n h, List.length_singleton]
      congr 1
      rw [pow_one]
      omega
    · have hdiv : n / 10 < f := by
        have h1 : n / 10 < n := Nat.div_lt_self (by omega) (by omega)
        omega
      have hm : n % 10 < 10 := Nat.mod_lt _ (by omega)
      have hassoc : (natDigitsAux f (n / 10) ++ [digitChar (n % 10)]) ++ r =
          natDigitsAux f (n / 10) ++ (digitChar (n % 10) :: r) := by
        simp
      have hstep : parseNatAux (digitChar (n % 10) :: r)
          (acc * 10 ^ (natDigitsAux f (n / 10)).length + n / 10) =
          parseNatAux r
            ((acc * 10 ^ (natDigitsAux f (n / 10)).length + n / 10) * 10 +
              ((digitChar (n % 10)).toNat - 48)) := by
        simp [parseNatAux, digitChar_isDigit _ hm]
      simp only [natDigitsAux, if_neg h, hassoc]
      rw [ih (n / 10) hdiv (digitChar (n % 10) :: r) acc, hstep,
        digitChar_toNat _ hm]
      congr 1
      have hlen : (natDigitsAux f (n / 10) ++ [digitChar (n % 10)]).length =
          (natDigitsAux f (n / 10)).length + 1 := by simp
      rw [hlen, pow_succ]
      have h48 : 48 + n % 10 - 48 = n % 10 := by omega
      rw [h48]
      calc (acc * 10 ^ (natDigitsAux f (n / 10)).length + n / 10) * 10 + n % 10
          = acc * (10 ^ (natDigitsAux f (n / 10)).length * 10) +
              (10 * (n / 10) + n % 10) := by ring
        _ = acc * (10 ^ (natDigitsAux f (n / 10)).length * 10) + n := by
              rw [Nat.div_add_mod]

theorem natDigits_all_digit (n : Nat) : (natDigits n).all Char.isDigit = true :=
  natDigitsAux_all_digit (n + 1) n

theorem natDigits_ne_nil (n : Nat) : natDigits n ≠ [] :=
  natDigitsAux_ne_nil (n + 1) n (Nat.lt_succ_self n)

/-- Recognising a well-formed placeholder token restores the `n`-th span. -/
theorem tryToken_at (tok : Str) (phs : List Str) (n : Nat) (q : Str) :
    tryToken tok phs (tok ++ (natDigits n ++ '_' :: '_' :: q)) =
      some (phs.getD n [], q) := by
  have hpre : tok.isPrefixOf (tok ++ (natDigits n ++ '_' :: '_' :: q)) = true :=
    List.isPrefixOf_iff_prefix.mpr (List.prefix_append _ _)
  have hdrop : (tok ++ (natDigits n ++ '_' :: '_' :: q)).drop tok.length =
      natDigits n ++ '_' :: '_' :: q := by
    rw [List.drop_left]
  obtain ⟨c, t, hct⟩ : ∃ c t, natDigits n = c :: t := by
    match h : natDigits n with
    | [] => exact absurd h (natDigits_ne_nil n)
    | c :: t => exact ⟨c, t, rfl⟩
  have hcdig : c.isDigit = true := by
    have := natDigits_all_digit n
    rw [hct, List.all_cons, Bool.and_eq_true] at this
    exact this.1
  have hparse : parseNatAux (natDigits n ++ '_' :: '_' :: q) 0 =
      (n, '_' :: '_' :: q) := by
    have := parseNatAux_digits (n + 1) n (Nat.lt_succ_self n)
      ('_' :: '_' :: q) 0
    rw [show (natDigitsAux (n + 1) n : Str) = natDigits n from rfl] at this
    rw [this, parseNatAux_stop _ _ (fun c t h => by cases h; rfl)]
    simp
  simp only [tryToken, hpre, if_pos rfl, hdrop]
  rw [hct, List.cons_append]
  simp only [hcdig, if_pos rfl]
  have hp2 : parseNatAux (c :: (t ++ '_' :: '_' :: q)) 0 = (n, '_' :: '_' :: q) := by
    rw [← List.cons_append, ← hct]
    exact hparse
  rw [hp2]
  simp

/-! ### Step lemmas for the fraction-protection scanners -/

theorem headOfAll {p : Char → Bool} {c : Char} {t : Str}
    (h : (c :: t).all p = true) : p c = true := by
  simp only [List.all_cons, Bool.and_eq_true] at h
  exact h.1

theorem all_mono {p q : Char → Bool} {l : Str} (h : l.all p = true)
    (hpq : ∀ c, p c = true → q c = true) : l.all q = true := by
  rw [List.all_eq_true] at h ⊢
  exact fun x hx => hpq x (h x hx)

theorem cleanCtx_spec {c : Char} (h : cleanCtx c = true) :
    ¬(c = '\\') ∧ ¬(c = '^') ∧ ¬(c = '_') := by
  simp only [cleanCtx, Bool.or_eq_true, Bool.not_eq_true'] at h
  refine ⟨?_, ?_, ?_⟩ <;> intro hh <;> subst hh <;> simp at h

theorem upToChar_append (stop : Char) (u q : Str)
    (hu : u.all (fun c => !(c = stop)) = true) :
    upToChar stop (u ++ stop :: q) = some (u, q) := by
  induction u with
  | nil => simp [upToChar]
  | cons c t ih =>
    have hc : ¬(c = stop) := by
      have := headOfAll hu
      simpa using this
    have ht : t.all (fun c => !(c = stop)) = true := by
      simp only [List.all_cons, Bool.and_eq_true] at hu; exact hu.2
    simp [upToChar, hc, ih ht]

theorem exponentSpanM_none (c : Char) (t : Str) (hc : ¬(c = '^')) :
    exponentSpanM (c :: t) = none := by
  simp only [exponentSpanM]
  split
  · rename_i t2 heq
    injection heq with h1 _
    exact absurd h1 hc
  · rfl

theorem exponentSpanM_at (u q : Str)
    (hu : u.all (fun c => !(c = '}')) = true)
    (hf : strHas "\\frac".toList u = true) :
    exponentSpanM ('^' :: (('{' :: (u ++ ['}'])) ++ q)) =
      some ('^' :: ('{' :: (u ++ ['}'])), q) := by
  have h1 : (('{' :: (u ++ ['}'])) ++ q : Str) = '{' :: (u ++ '}' :: q) := by
    simp
  rw [h1]
  simp only [exponentSpanM, upToChar_append '}' u q hu]
  rw [if_pos hf]
  simp

theorem nestedFracSpanM_none (c : Char) (t : Str) (hc : ¬(c = '\\')) :
    nestedFracSpanM (c :: t) = none := by
  have hpre : "\\dfrac\x7b".toList.isPrefixOf (c :: t) = false := by
    simp only [show ("\\dfrac\x7b".toList : Str) =
      '\\' :: 'd' :: 'f' :: 'r' :: 'a' :: 'c' :: '{' :: [] from rfl,
      List.isPrefixOf, Bool.and_eq_false_iff]
    left
    simpa using fun h => hc h.symm
  simp only [nestedFracSpanM]
  rw [if_neg (by rw [hpre]; decide)]

theorem fracM_none (prev : Option Char) (c : Char) (t : Str)
    (hc : ¬(c = '\\')) : fracM prev (c :: t) = none := by
  have hpre : "\\frac".toList.isPrefixOf (c :: t) = false := by
    simp only [show ("\\frac".toList : Str) =
      '\\' :: 'f' :: 'r' :: 'a' :: 'c' :: [] from rfl,
      List.isPrefixOf, Bool.and_eq_false_iff]
    left
    simpa using fun h => hc h.symm
  simp only [fracM, plainM]
  rw [if_neg (by rw [hpre]; decide)]

theorem mathbfM_none (prev : Option Char) (c : Char) (t : Str)
    (hc : ¬(c = '\\')) : mathbfM prev (c :: t) = none := by
  have hpre : "\\mathbf".toList.isPrefixOf (c :: t) = false := by
    simp only [show ("\\mathbf".toList : Str) =
      '\\' :: 'm' :: 'a' :: 't' :: 'h' :: 'b' :: 'f' :: [] from rfl,
      List.isPrefixOf, Bool.and_eq_false_iff]
    left
    simpa using fun h => hc h.symm
  simp only [mathbfM, plainM]
  rw [if_neg (by rw [hpre]; decide)]

theorem fracM_at (q : Str) (hq : headNotWord q = true) (prev : Option Char) :
    fracM prev ('\\' :: ('f' :: 'r' :: 'a' :: 'c' :: q)) =
      some ("\\dfrac".toList, "\\frac".toList, q) := by
  match q with
  | [] => rfl
  | c :: t =>
    have hw : isWordChar c = false := by
      simpa [headNotWord] using hq
    simp only [fracM, plainM]
    rw [if_pos (by rfl)]
    show (if isWordChar c = true then none else
      some ("\\dfrac".toList, "\\frac".toList, c :: t)) = _
    rw [hw]
    simp

theorem mathbfM_at (q : Str) (hq : headNotWord q = true) (prev : Option Char) :
    mathbfM prev ('\\' :: ('m' :: 'a' :: 't' :: 'h' :: 'b' :: 'f' :: q)) =
      some ("\\mathbb".toList, "\\mathbf".toList, q) := by
  match q with
  | [] => rfl
  | c :: t =>
    have hw : isWordChar c = false := by
      simpa [headNotWord] using hq
    simp only [mathbfM, plainM]
    rw [if_pos (by rfl)]
    show (if isWordChar c = true then none else
      some ("\\mathbb".toList, "\\mathbf".toList, c :: t)) = _
    rw [hw]
    simp

/-! ### Whole-pass wrappers -/

theorem protectAll_id (sm : SpanMatcher) (tok : Str) (p : Char → Bool)
    (hm : ∀ c t, p c = true → sm (c :: t) = none)
    (l : Str) (hl : l.all p = true) (acc : List Str) :
    protectAll sm tok acc l = (l, acc) :=
  protectGo_id_of_all sm tok p hm l hl 1 acc

theorem restoreAll_id (tok : Str) (phs : List Str) (p : Char → Bool)
    (hm : ∀ c t, p c = true → tryToken tok phs (c :: t) = none)
    (l : Str) (hl : l.all p = true) :
    restoreAll tok phs l = l :=
  restoreGo_id_of_all tok phs p hm l hl 1

/-- A protect pass that skips one trigger character inside clean context. -/
theorem protectAll_skip (sm : SpanMatcher) (tok : Str) (p : Char → Bool)
    (hm : ∀ c t, p c = true → sm (c :: t) = none)
    (pre : Str) (c : Char) (post : Str) (acc : List Str)
    (hpre : pre.all p = true) (hpost : post.all p = true)
    (hskip : sm (c :: post) = none) :
    protectAll sm tok acc (pre ++ c :: post) = (pre ++ c :: post, acc) := by
  have hlen : (pre ++ c :: post).length + 1 =
      pre.length + (post.length + 1 + 1) := by
    simp [Nat.add_comm, Nat.add_assoc, Nat.add_left_comm]
  rw [protectAll, hlen,
    protectGo_copy sm tok p hm pre hpre _ acc _]
  have step : protectGo sm tok (post.length + 1 + 1) acc (c :: post) =
      (c :: (protectGo sm tok (post.length + 1) acc post).1,
        (protectGo sm tok (post.length + 1) acc post).2) := by
    simp only [protectGo, hskip]
  rw [step, protectGo_id_of_all sm tok p hm post hpost 1 acc]

/-- A replace pass that skips one trigger character inside clean context. -/
theorem replaceAll_skip (m : Matcher) (p : Char → Bool)
    (hm : ∀ prev c t, p c = true → m prev (c :: t) = none)
    (pre : Str) (c : Char) (post : Str)
    (hpre : pre.all p = true) (hpost : post.all p = true)
    (hskip : ∀ prev, m prev (c :: post) = none) :
    replaceAll m (pre ++ c :: post) = pre ++ c :: post := by
  have hlen : (pre ++ c :: post).length + 1 =
      pre.length + (post.length + 1 + 1) := by
    simp [Nat.add_comm, Nat.add_assoc, Nat.add_left_comm]
  rw [replaceAll, hlen,
    replaceGo_copy m p hm pre hpre _ none _]
  have step : replaceGo m (post.length + 1 + 1) (lastOpt none pre) (c :: post) =
      c :: replaceGo m (post.length + 1) (some c) post := by
    simp only [replaceGo, hskip (lastOpt none pre)]
  rw [step]
  have hpost' : replaceGo m (post.length + 1) (some c) post = post := by
    have := replaceGo_copy m p hm post hpost 1 (some c) []
    rw [List.append_nil] at this
    rw [this, replaceGo_nil, List.append_nil]
  rw [hpost']

/-- A restore pass over clean context that consumes exactly one placeholder
token. -/
theorem restoreAll_token (tokTail : Str) (phs : List Str) (p : Char → Bool)
    (hp : ∀ c, p c = true → ¬(c = '_'))
    (pre q : Str) (n : Nat)
    (hpre : pre.all p = true) (hq : q.all p = true) :
    restoreAll ('_' :: tokTail) phs
      (pre ++ (('_' :: tokTail) ++ natDigits n ++ ['_', '_']) ++ q) =
      pre ++ phs.getD n [] ++ q := by
  have hm : ∀ c t, p c = true → tryToken ('_' :: tokTail) phs (c :: t) = none :=
    fun c t hc => tryToken_none_of_head tokTail phs c t (hp c hc)
  have hshape : (('_' :: tokTail) ++ natDigits n ++ ['_', '_'] : Str) =
      '_' :: (tokTail ++ natDigits n ++ ['_', '_']) := by simp
  rw [hshape]
  refine restoreAll_single ('_' :: tokTail) phs p hm pre '_'
    (tokTail ++ natDigits n ++ ['_', '_']) (phs.getD n []) q hpre hq ?_
  have hshape2 : ('_' :: ((tokTail ++ natDigits n ++ ['_', '_']) ++ q) : Str) =
      ('_' :: tokTail) ++ (natDigits n ++ '_' :: '_' :: q) := by simp
  rw [hshape2]
  exact tryToken_at ('_' :: tokTail) phs n q

theorem replaceAll_id (m : Matcher) (p : Char → Bool)
    (hm : ∀ prev c t, p c = true → m prev (c :: t) = none)
    (l : Str) (hl : l.all p = true) : replaceAll m l = l :=
  replaceAll_id_of_all m p (fun prev c t hall => hm prev c t (headOfAll hall)) l hl

theorem all_sandwich (pr : Char → Bool) (a M b : Str)
    (ha : a.all pr = true) (hM : M.all pr = true) (hb : b.all pr = true) :
    (a ++ M ++ b).all pr = true := by
  simp [List.all_append, ha, hM, hb]

theorem all_mid (pr : Char → Bool) (a M b : Str)
    (ha : a.all pr = true) (hM : M.all pr = true) (hb : b.all pr = true) :
    (a ++ (M ++ b)).all pr = true := by
  simp [List.all_append, ha, hM, hb]

theorem cleanCtx_imp_noCaret (c : Char) (hc : cleanCtx c = true) :
    (!(c = '^')) = true := by
  simp [(cleanCtx_spec hc).2.1]

theorem cleanCtx_imp_noBackslash (c : Char) (hc : cleanCtx c = true) :
    noBackslash c = true := by
  simp [noBackslash, (cleanCtx_spec hc).1]

theorem cleanCtx_imp_noUnderscore (c : Char) (hc : cleanCtx c = true) :
    noUnderscore c = true := by
  simp [noUnderscore, (cleanCtx_spec hc).2.2]

theorem protectGo_step_none (sm : SpanMatcher) (tok : Str) (fuel : Nat)
    (acc : List Str) (c : Char) (t : Str) (h : sm (c :: t) = none) :
    protectGo sm tok (fuel + 1) acc (c :: t) =
      (c :: (protectGo sm tok fuel acc t).1,
        (protectGo sm tok fuel acc t).2) := by
  simp only [protectGo, h]

theorem protectGo_step_some (sm : SpanMatcher) (tok : Str) (fuel : Nat)
    (acc : List Str) (c : Char) (t span rest : Str)
    (h : sm (c :: t) = some (span, rest)) :
    protectGo sm tok (fuel + 1) acc (c :: t) =
      (tok ++ natDigits acc.length ++ ['_', '_'] ++
          (protectGo sm tok fuel (acc ++ [span]) rest).1,
        (protectGo sm tok fuel (acc ++ [span]) rest).2) := by
  simp only [protectGo, h]

theorem restoreGo_step_none (tok : Str) (phs : List Str) (fuel : Nat)
    (c : Char) (t : Str) (h : tryToken tok phs (c :: t) = none) :
    restoreGo tok phs (fuel + 1) (c :: t) = c :: restoreGo tok phs fuel t := by
  simp only [restoreGo, h]

theorem restoreGo_step_some (tok : Str) (phs : List Str) (fuel : Nat)
    (c : Char) (t rep rest : Str)
    (h : tryToken tok phs (c :: t) = some (rep, rest)) :
    restoreGo tok phs (fuel + 1) (c :: t) = rep ++ restoreGo tok phs fuel rest := by
  simp only [restoreGo, h]

theorem strHas_tail (pat : Str) (c : Char) (t : Str)
    (h : strHas pat (c :: t) = false) : strHas pat t = false := by
  simp only [strHas, Bool.or_eq_false_iff] at h
  exact h.2

theorem strHas_of_isPrefixOf (pat l : Str) (h : pat.isPrefixOf l = true) :
    strHas pat l = true := by
  match l with
  | [] => simpa [strHas] using h
  | c :: t => simp [strHas, h]

theorem tryToken_none_of_not_prefix (tok : Str) (phs : List Str) (l : Str)
    (h : tok.isPrefixOf l = false) : tryToken tok phs l = none := by
  simp only [tryToken]
  rw [if_neg (by rw [h]; decide)]

/-- A scanner token free of the character `d` can never be read starting
inside a `d`-terminated window that does not contain it. -/
theorem prefix_stop_false (tok : Str) (d : Char) (hnd : ¬(d ∈ tok))
    (a r : Str) (ha : strHas tok a = false) :
    tok.isPrefixOf (a ++ d :: r) = false := by
  cases htest : tok.isPrefixOf (a ++ d :: r) with
  | false => rfl
  | true =>
    exfalso
    have hpre : tok <+: (a ++ d :: r) := List.isPrefixOf_iff_prefix.mp htest
    by_cases hlen : tok.length ≤ a.length
    · have h1 : tok = (a ++ d :: r).take tok.length :=
        List.prefix_iff_eq_take.mp hpre
      have h2 : (a ++ d :: r).take tok.length = a.take tok.length :=
        List.take_append_of_le_length hlen
      have h3 : tok <+: a := by
        rw [List.prefix_iff_eq_take]
        exact h1.trans h2
      have h4 := strHas_of_isPrefixOf tok a (List.isPrefixOf_iff_prefix.mpr h3)
      rw [ha] at h4
      simp at h4
    · push_neg at hlen
      have hget := hpre.getElem hlen
      rw [List.getElem_append_right (by omega)] at hget
      simp at hget
      have hmem : d ∈ tok := by
        rw [← hget]
        exact List.getElem_mem hlen
      exact hnd hmem

/-- A restore pass copies a window that ends at a character absent from the
token and does not contain the token. -/
theorem restoreGo_stop_body (tok : Str) (phs : List Str) (d : Char)
    (hnd : ¬(d ∈ tok)) :
    ∀ (s : Str), strHas tok s = false → ∀ (X : Str) (k : Nat),
      restoreGo tok phs (s.length + k) (s ++ d :: X) =
        s ++ restoreGo tok phs k (d :: X) := by
  intro s
  induction s with
  | nil => intro _ X k; simp
  | cons c t ih =>
    intro hs X k
    have hpf : tok.isPrefixOf ((c :: t) ++ d :: X) = false :=
      prefix_stop_false tok d hnd (c :: t) X hs
    have h0 : tryToken tok phs (c :: (t ++ d :: X)) = none := by
      apply tryToken_none_of_not_prefix
      simpa using hpf
    have hlen : (c :: t).length + k = (t.length + k) + 1 := by
      simp only [List.length_cons]
      omega
    rw [List.cons_append, hlen, restoreGo_step_none _ _ _ _ _ h0,
      ih (strHas_tail tok c t hs) X k]
    simp

/-- A `\frac` protected by a brace-free exponent window (which may contain
underscores but not the nested-protection stem) survives
`replaceTopLevelFrac` byte-for-byte. -/
theorem frac_protect_keep (p u q : Str)
    (hp : p.all cleanCtx = true) (hq : q.all cleanCtx = true)
    (hu : u.all (fun c => !(c = '}')) = true)
    (huN : strHas "__PROTECTED_NESTED_".toList u = false)
    (hf : strHas "\\frac".toList u = true) :
    replaceTopLevelFrac (p ++ ('^' :: ('{' :: (u ++ ['}']))) ++ q) =
      p ++ ('^' :: ('{' :: (u ++ ['}']))) ++ q := by
  have hpE : p.all (fun c => !(c = '^')) = true :=
    all_mono hp cleanCtx_imp_noCaret
  have hqE : q.all (fun c => !(c = '^')) = true :=
    all_mono hq cleanCtx_imp_noCaret
  have hpB : p.all noBackslash = true := all_mono hp cleanCtx_imp_noBackslash
  have hqB : q.all noBackslash = true := all_mono hq cleanCtx_imp_noBackslash
  have hpU : p.all noUnderscore = true := all_mono hp cleanCtx_imp_noUnderscore
  have hqU : q.all noUnderscore = true := all_mono hq cleanCtx_imp_noUnderscore
  have hmE : ∀ c t, (fun c => !(c = '^')) c = true → exponentSpanM (c :: t) = none :=
    fun c t hc => exponentSpanM_none c t (by simpa using hc)
  have hmN : ∀ c t, noBackslash c = true → nestedFracSpanM (c :: t) = none :=
    fun c t hc => nestedFracSpanM_none c t (by simpa [noBackslash] using hc)
  have hmF : ∀ prev c t, noBackslash c = true → fracM prev (c :: t) = none :=
    fun prev c t hc => fracM_none prev c t (by simpa [noBackslash] using hc)
  have hmRN : ∀ c t, noUnderscore c = true →
      tryToken "__PROTECTED_NESTED_".toList [] (c :: t) = none :=
    fun c t hc => tryToken_none_of_head "_PROTECTED_NESTED_".toList [] c t
      (by simpa [noUnderscore] using hc)
  have h1 : protectAll exponentSpanM "__PROTECTED_EXPONENT_".toList []
      (p ++ ('^' :: ('{' :: (u ++ ['}']))) ++ q) =
      (p ++ ("__PROTECTED_EXPONENT_".toList ++ natDigits 0 ++ ['_', '_']) ++ q,
        [('^' :: ('{' :: (u ++ ['}'])))]) := by
    have := protectAll_single exponentSpanM "__PROTECTED_EXPONENT_".toList
      (fun c => !(c = '^')) hmE p '^' ('{' :: (u ++ ['}'])) q [] hpE hqE
      (exponentSpanM_at u q hu hf)
    simpa using this
  have h2 : protectAll nestedFracSpanM "__PROTECTED_NESTED_".toList []
      (p ++ ("__PROTECTED_EXPONENT_".toList ++ natDigits 0 ++ ['_', '_']) ++ q) =
      (p ++ ("__PROTECTED_EXPONENT_".toList ++ natDigits 0 ++ ['_', '_']) ++ q,
        []) :=
    protectAll_id nestedFracSpanM "__PROTECTED_NESTED_".toList noBackslash hmN _
      (all_sandwich noBackslash p _ q hpB (by decide) hqB) []
  have h3 : replaceAll fracM
      (p ++ ("__PROTECTED_EXPONENT_".toList ++ natDigits 0 ++ ['_', '_']) ++ q) =
      p ++ ("__PROTECTED_EXPONENT_".toList ++ natDigits 0 ++ ['_', '_']) ++ q :=
    replaceAll_id fracM noBackslash hmF _
      (all_sandwich noBackslash p _ q hpB (by decide) hqB)
  have h4 : restoreAll "__PROTECTED_EXPONENT_".toList
      [('^' :: ('{' :: (u ++ ['}'])))]
      (p ++ ("__PROTECTED_EXPONENT_".toList ++ natDigits 0 ++ ['_', '_']) ++ q) =
      p ++ ('^' :: ('{' :: (u ++ ['}']))) ++ q := by
    have := restoreAll_token "_PROTECTED_EXPONENT_".toList
      [('^' :: ('{' :: (u ++ ['}'])))] cleanCtx
      (fun c hc => (cleanCtx_spec hc).2.2) p q 0 hp hq
    rw [show ('_' :: "_PROTECTED_EXPONENT_".toList : Str) =
      "__PROTECTED_EXPONENT_".toList from rfl] at this
    simpa [List.getD] using this
  have h5 : restoreAll "__PROTECTED_NESTED_".toList []
      (p ++ ('^' :: ('{' :: (u ++ ['}']))) ++ q) =
      p ++ ('^' :: ('{' :: (u ++ ['}']))) ++ q := by
    have hshape : p ++ ('^' :: ('{' :: (u ++ ['}']))) ++ q =
        p ++ ('^' :: ('{' :: (u ++ '}' :: q))) := by
      simp
    have hlen : (p ++ ('^' :: ('{' :: (u ++ ['}']))) ++ q).length + 1 =
        p.length + (((u.length + ((q.length + 1) + 1)) + 1) + 1) := by
      simp only [List.length_append, List.length_cons, List.length_nil]
      omega
    rw [restoreAll, hlen, hshape,
      restoreGo_copy "__PROTECTED_NESTED_".toList [] noUnderscore hmRN p hpU _ _,
      restoreGo_step_none _ _ _ _ _ (hmRN '^' _ (by decide)),
      restoreGo_step_none _ _ _ _ _ (hmRN '{' _ (by decide)),
      restoreGo_stop_body "__PROTECTED_NESTED_".toList [] '}' (by decide) u huN
        q _,
      restoreGo_step_none _ _ _ _ _ (hmRN '}' _ (by decide)),
      restoreGo_id_of_all "__PROTECTED_NESTED_".toList [] noUnderscore hmRN q
        hqU 1]
  simp only [replaceTopLevelFrac, h1, h2, h3, h4, h5]

/-- An unprotected `\frac` at a word boundary in clean context becomes
`\dfrac`. -/
theorem frac_rewrite_clean (p q : Str)
    (hp : p.all cleanCtx = true) (hq : q.all cleanCtx = true)
    (hw : headNotWord q = true) :
    replaceTopLevelFrac (p ++ "\\frac".toList ++ q) =
      p ++ "\\dfrac".toList ++ q := by
  have hpE : p.all (fun c => !(c = '^')) = true :=
    all_mono hp cleanCtx_imp_noCaret
  have hqE : q.all (fun c => !(c = '^')) = true :=
    all_mono hq cleanCtx_imp_noCaret
  have hpB : p.all noBackslash = true := all_mono hp cleanCtx_imp_noBackslash
  have hqB : q.all noBackslash = true := all_mono hq cleanCtx_imp_noBackslash
  have hpU : p.all noUnderscore = true := all_mono hp cleanCtx_imp_noUnderscore
  have hqU : q.all noUnderscore = true := all_mono hq cleanCtx_imp_noUnderscore
  have hmE : ∀ c t, (fun c => !(c = '^')) c = true → exponentSpanM (c :: t) = none :=
    fun c t hc => exponentSpanM_none c t (by simpa using hc)
  have hmN : ∀ c t, noBackslash c = true → nestedFracSpanM (c :: t) = none :=
    fun c t hc => nestedFracSpanM_none c t (by simpa [noBackslash] using hc)
  have hmF : ∀ prev c t, noBackslash c = true → fracM prev (c :: t) = none :=
    fun prev c t hc => fracM_none prev c t (by simpa [noBackslash] using hc)
  have hmRE : ∀ c t, noUnderscore c = true →
      tryToken "__PROTECTED_EXPONENT_".toList [] (c :: t) = none :=
    fun c t hc => tryToken_none_of_head "_PROTECTED_EXPONENT_".toList [] c t
      (by simpa [noUnderscore] using hc)
  have hmRN : ∀ c t, noUnderscore c = true →
      tryToken "__PROTECTED_NESTED_".toList [] (c :: t) = none :=
    fun c t hc => tryToken_none_of_head "_PROTECTED_NESTED_".toList [] c t
      (by simpa [noUnderscore] using hc)
  have hX : (p ++ "\\frac".toList ++ q : Str) =
      p ++ '\\' :: ('f' :: 'r' :: 'a' :: 'c' :: q) := by
    rw [List.append_assoc]
    rfl
  have h1 : protectAll exponentSpanM "__PROTECTED_EXPONENT_".toList []
      (p ++ '\\' :: ('f' :: 'r' :: 'a' :: 'c' :: q)) =
      (p ++ '\\' :: ('f' :: 'r' :: 'a' :: 'c' :: q), []) :=
    protectAll_id exponentSpanM "__PROTECTED_EXPONENT_".toList
      (fun c => !(c = '^')) hmE _
      (all_mid (fun c => !(c = '^')) p ['\\', 'f', 'r', 'a', 'c'] q hpE
        (by decide) hqE) []
  have h2 : protectAll nestedFracSpanM "__PROTECTED_NESTED_".toList []
      (p ++ '\\' :: ('f' :: 'r' :: 'a' :: 'c' :: q)) =
      (p ++ '\\' :: ('f' :: 'r' :: 'a' :: 'c' :: q), []) :=
    protectAll_skip nestedFracSpanM "__PROTECTED_NESTED_".toList noBackslash hmN
      p '\\' ('f' :: 'r' :: 'a' :: 'c' :: q) [] hpB
      (all_mid noBackslash [] ['f', 'r', 'a', 'c'] q (by decide) (by decide) hqB)
      rfl
  have h3 : replaceAll fracM (p ++ '\\' :: ('f' :: 'r' :: 'a' :: 'c' :: q)) =
      p ++ ("\\dfrac".toList ++ q) := by
    have := replaceAll_single fracM noBackslash hmF p '\\' ['f', 'r', 'a', 'c']
      "\\dfrac".toList q hpB hqB (fun prev => fracM_at q hw prev)
    simpa [List.append_assoc] using this
  have h4 : restoreAll "__PROTECTED_EXPONENT_".toList []
      (p ++ ("\\dfrac".toList ++ q)) = p ++ ("\\dfrac".toList ++ q) :=
    restoreAll_id "__PROTECTED_EXPONENT_".toList [] noUnderscore hmRE _
      (all_mid noUnderscore p "\\dfrac".toList q hpU (by decide) hqU)
  have h5 : restoreAll "__PROTECTED_NESTED_".toList []
      (p ++ ("\\dfrac".toList ++ q)) = p ++ ("\\dfrac".toList ++ q) :=
    restoreAll_id "__PROTECTED_NESTED_".toList [] noUnderscore hmRN _
      (all_mid noUnderscore p "\\dfrac".toList q hpU (by decide) hqU)
  rw [hX]
  simp only [replaceTopLevelFrac, h1, h2, h3, h4, h5, List.append_assoc]

/-- An unprotected `\mathbf` at a word boundary in clean context becomes
`\mathbb` under `replaceLatexCommands`. -/
theorem mathbf_rewrite_clean (p q : Str)
    (hp : p.all cleanCtx = true) (hq : q.all cleanCtx = true)
    (hw : headNotWord q = true) :
    replaceLatexCommands (p ++ "\\mathbf".toList ++ q) =
      p ++ "\\mathbb".toList ++ q := by
  have hpE : p.all (fun c => !(c = '^')) = true :=
    all_mono hp cleanCtx_imp_noCaret
  have hqE : q.all (fun c => !(c = '^')) = true :=
    all_mono hq cleanCtx_imp_noCaret
  have hpB : p.all noBackslash = true := all_mono hp cleanCtx_imp_noBackslash
  have hqB : q.all noBackslash = true := all_mono hq cleanCtx_imp_noBackslash
  have hpU : p.all noUnderscore = true := all_mono hp cleanCtx_imp_noUnderscore
  have hqU : q.all noUnderscore = true := all_mono hq cleanCtx_imp_noUnderscore
  have hmE : ∀ c t, (fun c => !(c = '^')) c = true → exponentSpanM (c :: t) = none :=
    fun c t hc => exponentSpanM_none c t (by simpa using hc)
  have hmN : ∀ c t, noBackslash c = true → nestedFracSpanM (c :: t) = none :=
    fun c t hc => nestedFracSpanM_none c t (by simpa [noBackslash] using hc)
  have hmM : ∀ prev c t, noBackslash c = true → mathbfM prev (c :: t) = none :=
    fun prev c t hc => mathbfM_none prev c t (by simpa [noBackslash] using hc)
  have hmRE : ∀ c t, noUnderscore c = true →
      tryToken "__PROTECTED_EXPONENT_".toList [] (c :: t) = none :=
    fun c t hc => tryToken_none_of_head "_PROTECTED_EXPONENT_".toList [] c t
      (by simpa [noUnderscore] using hc)
  have hmRN : ∀ c t, noUnderscore c = true →
      tryToken "__PROTECTED_NESTED_".toList [] (c :: t) = none :=
    fun c t hc => tryToken_none_of_head "_PROTECTED_NESTED_".toList [] c t
      (by simpa [noUnderscore] using hc)
  have hX : (p ++ "\\mathbf".toList ++ q : Str) =
      p ++ '\\' :: ('m' :: 'a' :: 't' :: 'h' :: 'b' :: 'f' :: q) := by
    rw [List.append_assoc]
    rfl
  have h1 : protectAll exponentSpanM "__PROTECTED_EXPONENT_".toList []
      (p ++ '\\' :: ('m' :: 'a' :: 't' :: 'h' :: 'b' :: 'f' :: q)) =
      (p ++ '\\' :: ('m' :: 'a' :: 't' :: 'h' :: 'b' :: 'f' :: q), []) :=
    protectAll_id exponentSpanM "__PROTECTED_EXPONENT_".toList
      (fun c => !(c = '^')) hmE _
      (all_mid (fun c => !(c = '^')) p ['\\', 'm', 'a', 't', 'h', 'b', 'f'] q hpE
        (by decide) hqE) []
  have h2 : protectAll nestedFracSpanM "__PROTECTED_NESTED_".toList []
      (p ++ '\\' :: ('m' :: 'a' :: 't' :: 'h' :: 'b' :: 'f' :: q)) =
      (p ++ '\\' :: ('m' :: 'a' :: 't' :: 'h' :: 'b' :: 'f' :: q), []) :=
    protectAll_skip nestedFracSpanM "__PROTECTED_NESTED_".toList noBackslash hmN
      p '\\' ('m' :: 'a' :: 't' :: 'h' :: 'b' :: 'f' :: q) [] hpB
      (all_mid noBackslash [] ['m', 'a', 't', 'h', 'b', 'f'] q (by decide)
        (by decide) hqB)
      rfl
  have hmFskip : ∀ prev, fracM prev
      ('\\' :: ('m' :: 'a' :: 't' :: 'h' :: 'b' :: 'f' :: q)) = none :=
    fun prev => rfl
  have hmF : ∀ prev c t, noBackslash c = true → fracM prev (c :: t) = none :=
    fun prev c t hc => fracM_none prev c t (by simpa [noBackslash] using hc)
  have h3 : replaceAll fracM
      (p ++ '\\' :: ('m' :: 'a' :: 't' :: 'h' :: 'b' :: 'f' :: q)) =
      p ++ '\\' :: ('m' :: 'a' :: 't' :: 'h' :: 'b' :: 'f' :: q) :=
    replaceAll_skip fracM noBackslash hmF p '\\'
      ('m' :: 'a' :: 't' :: 'h' :: 'b' :: 'f' :: q) hpB
      (all_mid noBackslash [] ['m', 'a', 't', 'h', 'b', 'f'] q (by decide)
        (by decide) hqB)
      hmFskip
  have h4 : restoreAll "__PROTECTED_EXPONENT_".toList []
      (p ++ '\\' :: ('m' :: 'a' :: 't' :: 'h' :: 'b' :: 'f' :: q)) =
      p ++ '\\' :: ('m' :: 'a' :: 't' :: 'h' :: 'b' :: 'f' :: q) :=
    restoreAll_id "__PROTECTED_EXPONENT_".toList [] noUnderscore hmRE _
      (all_mid noUnderscore p ['\\', 'm', 'a', 't', 'h', 'b', 'f'] q hpU
        (by decide) hqU)
  have h5 : restoreAll "__PROTECTED_NESTED_".toList []
      (p ++ '\\' :: ('m' :: 'a' :: 't' :: 'h' :: 'b' :: 'f' :: q)) =
      p ++ '\\' :: ('m' :: 'a' :: 't' :: 'h' :: 'b' :: 'f' :: q) :=
    restoreAll_id "__PROTECTED_NESTED_".toList [] noUnderscore hmRN _
      (all_mid noUnderscore p ['\\', 'm', 'a', 't', 'h', 'b', 'f'] q hpU
        (by decide) hqU)
  have h6 : replaceAll mathbfM
      (p ++ '\\' :: ('m' :: 'a' :: 't' :: 'h' :: 'b' :: 'f' :: q)) =
      p ++ ("\\mathbb".toList ++ q) := by
    have := replaceAll_single mathbfM noBackslash hmM p '\\'
      ['m', 'a', 't', 'h', 'b', 'f'] "\\mathbb".toList q hpB hqB
      (fun prev => mathbfM_at q hw prev)
    simpa [List.append_assoc] using this
  rw [hX]
  simp only [replaceLatexCommands, replaceTopLevelFrac, h1, h2, h3, h4, h5, h6,
    List.append_assoc]

/-- C6 (amended): for contexts free of backslashes, carets and underscores,
`replaceTopLevelFrac` keeps a `\frac` inside a brace-free `^{...}` window
(no `}` before the window's closing brace, and the window not spelling the
internal placeholder stem `__PROTECTED_NESTED_`) byte-for-byte, while an
unprotected `\frac` at a word boundary becomes `\dfrac`;
`replaceLatexCommands` additionally rewrites `\mathbf` at a word boundary to
`\mathbb`. -/
theorem C6_frac_rewrite :
    (∀ p u q : Str, p.all cleanCtx = true → q.all cleanCtx = true →
      u.all (fun c => !(c = '}')) = true →
      strHas "__PROTECTED_NESTED_".toList u = false →
      strHas "\\frac".toList u = true →
      replaceTopLevelFrac (p ++ ('^' :: ('{' :: (u ++ ['}']))) ++ q) =
        p ++ ('^' :: ('{' :: (u ++ ['}']))) ++ q) ∧
    (∀ p q : Str, p.all cleanCtx = true → q.all cleanCtx = true →
      headNotWord q = true →
      replaceTopLevelFrac (p ++ "\\frac".toList ++ q) =
        p ++ "\\dfrac".toList ++ q) ∧
    (∀ p q : Str, p.all cleanCtx = true → q.all cleanCtx = true →
      headNotWord q = true →
      replaceLatexCommands (p ++ "\\mathbf".toList ++ q) =
        p ++ "\\mathbb".toList ++ q) :=
  ⟨fun p u q hp hq hu huN hf => frac_protect_keep p u q hp hq hu huN hf,
   fun p q hp hq hw => frac_rewrite_clean p q hp hq hw,
   fun p q hp hq hw => mathbf_rewrite_clean p q hp hq hw⟩

/-- Witness for C6 at concrete inputs: `x^{\frac a_2}+1` (an exponent window
containing an underscore) is kept verbatim, `a=\frac b` becomes
`a=\dfrac b`, and `a=\mathbf x` becomes `a=\mathbb x`. -/
theorem C6_witness :
    replaceTopLevelFrac
        ("x".toList ++ ('^' :: ('{' :: ("\\frac a_2".toList ++ ['}']))) ++
          "+1".toList) =
      "x".toList ++ ('^' :: ('{' :: ("\\frac a_2".toList ++ ['}']))) ++
        "+1".toList ∧
    replaceTopLevelFrac ("a=".toList ++ "\\frac".toList ++ " b".toList) =
      "a=".toList ++ "\\dfrac".toList ++ " b".toList ∧
    replaceLatexCommands ("a=".toList ++ "\\mathbf".toList ++ " x".toList) =
      "a=".toList ++ "\\mathbb".toList ++ " x".toList :=
  ⟨C6_frac_rewrite.1 "x".toList "\\frac a_2".toList "+1".toList (by decide)
      (by decide) (by decide) (by decide) (by decide),
   C6_frac_rewrite.2.1 "a=".toList " b".toList (by decide) (by decide)
      (by decide),
   C6_frac_rewrite.2.2 "a=".toList " x".toList (by decide) (by decide)
      (by decide)⟩

/-! ### The protect/restore round trip on structured documents -/

theorem blockMathSpanM_none (c : Char) (t : Str) (hc : ¬(c = '$')) :
    blockMathSpanM (c :: t) = none := by
  simp only [blockMathSpanM]
  split
  · rename_i heq
    injection heq with h1 _
    exact absurd h1 hc
  · rfl

theorem blockMathSpanM_none_snd (c : Char) (t : Str) (hc : ¬(c = '$')) :
    blockMathSpanM ('$' :: c :: t) = none := by
  simp only [blockMathSpanM]
  split
  · rename_i heq
    injection heq with _ h2
    injection h2 with h2a _
    exact absurd h2a hc
  · rfl

theorem inlineMathSpanM_none (c : Char) (t : Str) (hc : ¬(c = '$')) :
    inlineMathSpanM (c :: t) = none := by
  simp only [inlineMathSpanM]
  split
  · rename_i heq
    injection heq with h1 _
    exact absurd h1 hc
  · rfl

theorem upToStr_dollars (s R : Str) (hs : s.all noDollar = true) :
    upToStr "$$".toList (s ++ '$' :: '$' :: R) = some (s, R) := by
  induction s with
  | nil =>
    have hpp : ("$$".toList.isPrefixOf ('$' :: '$' :: R)) = true := by
      rw [show ("$$".toList : Str) = ['$', '$'] from rfl]
      simp [List.isPrefixOf]
    simp only [List.nil_append, upToStr]
    rw [if_pos hpp]
    simp
  | cons c t ih =>
    have hc : ¬(c = '$') := by
      have := headOfAll hs
      simpa [noDollar] using this
    have ht : t.all noDollar = true := by
      simp only [List.all_cons, Bool.and_eq_true] at hs
      exact hs.2
    have hnp : ("$$".toList.isPrefixOf (c :: (t ++ '$' :: '$' :: R))) = false := by
      rw [show ("$$".toList : Str) = ['$', '$'] from rfl]
      simp only [List.isPrefixOf, Bool.and_eq_false_iff]
      left
      simpa using fun h => hc h.symm
    simp only [List.cons_append, upToStr, List.append_eq]
    rw [if_neg (by rw [hnp]; decide), ih ht]
    rfl

theorem blockMathSpanM_at (s R : Str) (hs : s.all noDollar = true) :
    blockMathSpanM ('$' :: ('$' :: (s ++ '$' :: '$' :: R))) =
      some ('$' :: '$' :: s ++ ['$', '$'], R) := by
  simp only [blockMathSpanM, upToStr_dollars s R hs]

theorem plainCh_imp_noDollar (c : Char) (hc : plainCh c = true) :
    noDollar c = true := by
  simp only [plainCh, Bool.or_eq_true, Bool.not_eq_true'] at hc
  simp only [noDollar, Bool.not_eq_true']
  simp [Bool.or_eq_false_iff] at hc
  simp [hc.1]

theorem plainCh_imp_noUnderscore (c : Char) (hc : plainCh c = true) :
    noUnderscore c = true := by
  simp only [plainCh, Bool.or_eq_true, Bool.not_eq_true'] at hc
  simp only [noUnderscore, Bool.not_eq_true']
  simp [Bool.or_eq_false_iff] at hc
  simp [hc.2]

theorem blockM_not_at_close (r : List MathItem) (hr : headIsText r = true)
    (hd : docOK r = true) : blockMathSpanM ('$' :: renderDoc r) = none := by
  match r with
  | [] => rfl
  | .text s :: r2 =>
    simp only [docOK, Bool.and_eq_true] at hd
    obtain ⟨⟨⟨hne, hall⟩, _⟩, _⟩ := hd
    have hne' : s ≠ [] := by simpa using hne
    obtain ⟨c0, s', hs0⟩ := List.exists_cons_of_ne_nil hne'
    have hc0 : ¬(c0 = '$') := by
      rw [hs0] at hall
      have := plainCh_imp_noDollar c0 (headOfAll hall)
      simpa [noDollar] using this
    rw [show renderDoc (.text s :: r2) = s ++ renderDoc r2 from rfl, hs0,
      List.cons_append]
    exact blockMathSpanM_none_snd c0 _ hc0
  | .inline _ :: _ => simp [headIsText] at hr
  | .blockM _ :: _ => simp [headIsText] at hr

theorem hmD_block : ∀ c t, noDollar c = true →
    blockMathSpanM (c :: t) = none :=
  fun c t hc => blockMathSpanM_none c t (by simpa [noDollar] using hc)

theorem hmD_inline : ∀ c t, noDollar c = true →
    inlineMathSpanM (c :: t) = none :=
  fun c t hc => inlineMathSpanM_none c t (by simpa [noDollar] using hc)

/-- Phase 1: the block-protect pass turns a document into its block-protected
render and collects exactly its block spans, numbered from the accumulator
length. -/
theorem protectB (d : List MathItem) :
    ∀ (hd : docOK d = true) (k : Nat) (acc : List Str),
      protectGo blockMathSpanM "__LATEX_BLOCK_".toList
          ((renderDoc d).length + k) acc (renderDoc d) =
        (renderB acc.length d, acc ++ blockSpans d) := by
  induction d with
  | nil =>
    intro _ k acc
    simp only [renderDoc, renderB, blockSpans]
    rw [protectGo_nil]
    simp
  | cons it r ih =>
    intro hd k acc
    match it with
    | .text s =>
      simp only [docOK, Bool.and_eq_true] at hd
      obtain ⟨⟨⟨hne, hall⟩, _⟩, hdr⟩ := hd
      have hsD : s.all noDollar = true := all_mono hall plainCh_imp_noDollar
      simp only [renderDoc]
      have hlen : (s ++ renderDoc r).length + k =
          s.length + ((renderDoc r).length + k) := by
        simp [Nat.add_assoc]
      rw [hlen, protectGo_copy blockMathSpanM "__LATEX_BLOCK_".toList noDollar
        hmD_block s hsD _ acc _, ih hdr k acc]
      simp [renderB, blockSpans]
    | .inline s =>
      simp only [docOK, Bool.and_eq_true] at hd
      obtain ⟨⟨⟨hne, hall⟩, hrT⟩, hdr⟩ := hd
      have hne' : s ≠ [] := by simpa using hne
      obtain ⟨c0, s', hs0⟩ := List.exists_cons_of_ne_nil hne'
      have hc0 : ¬(c0 = '$') := by
        rw [hs0] at hall
        have := headOfAll hall
        simpa [noDollar] using this
      have hnone1 : blockMathSpanM ('$' :: (s ++ '$' :: renderDoc r)) = none := by
        rw [hs0, List.cons_append]
        exact blockMathSpanM_none_snd c0 _ hc0
      have hnone2 : blockMathSpanM ('$' :: renderDoc r) = none :=
        blockM_not_at_close r hrT hdr
      simp only [renderDoc]
      have hlen : ('$' :: (s ++ '$' :: renderDoc r)).length + k =
          (s.length + (((renderDoc r).length + k) + 1)) + 1 := by
        simp only [List.length_cons, List.length_append]
        omega
      rw [hlen, protectGo_step_none _ _ _ _ _ _ hnone1,
        protectGo_copy blockMathSpanM "__LATEX_BLOCK_".toList noDollar
          hmD_block s hall (((renderDoc r).length + k) + 1) acc
          ('$' :: renderDoc r),
        protectGo_step_none _ _ _ _ _ _ hnone2, ih hdr k acc]
      simp [renderB, blockSpans]
    | .blockM s =>
      simp only [docOK, Bool.and_eq_true] at hd
      obtain ⟨⟨⟨hsD, _⟩, hrT⟩, hdr⟩ := hd
      have hmatch := blockMathSpanM_at s (renderDoc r) hsD
      simp only [renderDoc]
      have hlen : ('$' :: ('$' :: (s ++ '$' :: ('$' :: renderDoc r)))).length + k =
          ((renderDoc r).length + (k + s.length + 3)) + 1 := by
        simp only [List.length_cons, List.length_append]
        omega
      rw [hlen, protectGo_step_some _ _ _ _ _ _ _ _ hmatch,
        ih hdr (k + s.length + 3) (acc ++ [('$' :: '$' :: s ++ ['$', '$'])])]
      simp [renderB, blockSpans, List.append_assoc]


theorem takeWhile_noDollar (s rest : Str) (hs : s.all noDollar = true) :
    (s ++ '$' :: rest).takeWhile (fun c => !(c = '$')) = s := by
  induction s with
  | nil => simp
  | cons c t ih =>
    have hc : ¬(c = '$') := by
      have := headOfAll hs
      simpa [noDollar] using this
    have ht : t.all noDollar = true := by
      simp only [List.all_cons, Bool.and_eq_true] at hs
      exact hs.2
    simp [List.takeWhile_cons, hc, ih ht]

theorem inlineM_at (s rest : Str) (hs : s.all noDollar = true) :
    inlineMathSpanM ('$' :: (s ++ '$' :: rest)) = some ('$' :: s ++ ['$'], rest) := by
  have htw : (s ++ '$' :: rest).takeWhile (fun c => !(c = '$')) = s :=
    takeWhile_noDollar s rest hs
  simp only [inlineMathSpanM, htw]
  rw [List.drop_left]
  simp

theorem isDigit_imp_noDollar (c : Char) (hc : Char.isDigit c = true) :
    noDollar c = true := by
  by_cases h : c = '$'
  · rw [h] at hc
    exact absurd hc (by decide)
  · simp [noDollar, h]

theorem isDigit_imp_noUnderscore (c : Char) (hc : Char.isDigit c = true) :
    noUnderscore c = true := by
  by_cases h : c = '_'
  · rw [h] at hc
    exact absurd hc (by decide)
  · simp [noUnderscore, h]

/-- Phase 2: the inline-protect pass over a block-protected render protects
exactly the inline spans, numbered from the accumulator length. -/
theorem protectI (d : List MathItem) :
    ∀ (hd : docOK d = true) (bk : Nat) (k : Nat) (acc : List Str),
      protectGo inlineMathSpanM "__LATEX_INLINE_".toList
          ((renderB bk d).length + k) acc (renderB bk d) =
        (renderBoth bk acc.length d, acc ++ inlineSpans d) := by
  induction d with
  | nil =>
    intro _ _ k acc
    simp only [renderB, renderBoth, inlineSpans]
    rw [protectGo_nil]
    simp
  | cons it r ih =>
    intro hd bk k acc
    match it with
    | .text s =>
      simp only [docOK, Bool.and_eq_true] at hd
      obtain ⟨⟨⟨hne, hall⟩, _⟩, hdr⟩ := hd
      have hsD : s.all noDollar = true := all_mono hall plainCh_imp_noDollar
      simp only [renderB]
      have hlen : (s ++ renderB bk r).length + k =
          s.length + ((renderB bk r).length + k) := by
        simp [Nat.add_assoc]
      rw [hlen, protectGo_copy inlineMathSpanM "__LATEX_INLINE_".toList noDollar
        hmD_inline s hsD _ acc _, ih hdr bk k acc]
      simp [renderBoth, inlineSpans]
    | .inline s =>
      simp only [docOK, Bool.and_eq_true] at hd
      obtain ⟨⟨⟨hne, hall⟩, hrT⟩, hdr⟩ := hd
      have hmatch := inlineM_at s (renderB bk r) hall
      simp only [renderB]
      have hlen : ('$' :: (s ++ '$' :: renderB bk r)).length + k =
          ((renderB bk r).length + (k + s.length + 1)) + 1 := by
        simp only [List.length_cons, List.length_append]
        omega
      rw [hlen, protectGo_step_some _ _ _ _ _ _ _ _ hmatch,
        ih hdr bk (k + s.length + 1) (acc ++ [('$' :: s ++ ['$'])])]
      simp [renderBoth, inlineSpans, List.append_assoc]
    | .blockM s =>
      simp only [docOK, Bool.and_eq_true] at hd
      obtain ⟨⟨⟨_, _⟩, hrT⟩, hdr⟩ := hd
      have hdigD : (natDigits bk).all noDollar = true :=
        all_mono (natDigits_all_digit bk) isDigit_imp_noDollar
      have hpreD : ("__LATEX_BLOCK_".toList ++ natDigits bk ++ ['_', '_']).all
          noDollar = true :=
        all_sandwich noDollar _ _ _ (by decide) hdigD (by decide)
      have hsh : renderB bk (.blockM s :: r) =
          ("__LATEX_BLOCK_".toList ++ natDigits bk ++ ['_', '_']) ++
            renderB (bk + 1) r := by
        simp [renderB]
      rw [hsh]
      have hlen : ((("__LATEX_BLOCK_".toList ++ natDigits bk ++ ['_', '_']) ++
          renderB (bk + 1) r)).length + k =
          ("__LATEX_BLOCK_".toList ++ natDigits bk ++ ['_', '_']).length +
            ((renderB (bk + 1) r).length + k) := by
        simp only [List.length_append]
        omega
      rw [hlen, protectGo_copy inlineMathSpanM "__LATEX_INLINE_".toList noDollar
        hmD_inline _ hpreD _ acc _, ih hdr (bk + 1) k acc]
      simp [renderBoth, inlineSpans]



/-- The scanner tail `LATEX_BLOCK_` can never be read at an underscore-free
text run followed by the start of a placeholder, a math literal or the end:
its sixth character is an underscore. -/
theorem lbTail_not_prefix (s G : Str) (hsu : s.all noUnderscore = true)
    (hG : G = [] ∨ (∃ g, G = '_' :: '_' :: g) ∨ (∃ g, G = '$' :: g)) :
    (['L', 'A', 'T', 'E', 'X', '_', 'B', 'L', 'O', 'C', 'K', '_'] : Str).isPrefixOf
      (s ++ G) = false := by
  match s with
  | [] =>
    rcases hG with rfl | ⟨g, rfl⟩ | ⟨g, rfl⟩ <;> simp [List.isPrefixOf]
  | [c1] =>
    rcases hG with rfl | ⟨g, rfl⟩ | ⟨g, rfl⟩ <;> simp [List.isPrefixOf]
  | [c1, c2] =>
    rcases hG with rfl | ⟨g, rfl⟩ | ⟨g, rfl⟩ <;> simp [List.isPrefixOf]
  | [c1, c2, c3] =>
    rcases hG with rfl | ⟨g, rfl⟩ | ⟨g, rfl⟩ <;> simp [List.isPrefixOf]
  | [c1, c2, c3, c4] =>
    rcases hG with rfl | ⟨g, rfl⟩ | ⟨g, rfl⟩ <;> simp [List.isPrefixOf]
  | [c1, c2, c3, c4, c5] =>
    rcases hG with rfl | ⟨g, rfl⟩ | ⟨g, rfl⟩ <;> simp [List.isPrefixOf]
  | c1 :: c2 :: c3 :: c4 :: c5 :: c6 :: s6 =>
    have h6 : ¬('_' = c6) := by
      simp only [List.all_cons, Bool.and_eq_true] at hsu
      have := hsu.2.2.2.2.2.1
      intro h
      rw [← h] at this
      simp [noUnderscore] at this
    simp [List.isPrefixOf, h6]

theorem tryToken_TB_noU (phs : List Str) : ∀ c t, noUnderscore c = true →
    tryToken "__LATEX_BLOCK_".toList phs (c :: t) = none := by
  intro c t hc
  rw [show ("__LATEX_BLOCK_".toList : Str) = '_' :: "_LATEX_BLOCK_".toList
    from rfl]
  exact tryToken_none_of_head _ phs c t (by simpa [noUnderscore] using hc)

theorem tryToken_TB_isDigit (phs : List Str) : ∀ c t, Char.isDigit c = true →
    tryToken "__LATEX_BLOCK_".toList phs (c :: t) = none := by
  intro c t hc
  exact tryToken_TB_noU phs c t (isDigit_imp_noUnderscore c hc)

theorem tryToken_TB_trailing (phs : List Str) (rest : Str)
    (hrest : (['L', 'A', 'T', 'E', 'X', '_', 'B', 'L', 'O', 'C', 'K', '_'] :
      Str).isPrefixOf rest = false) :
    tryToken "__LATEX_BLOCK_".toList phs ('_' :: '_' :: rest) = none := by
  have hp : ("__LATEX_BLOCK_".toList.isPrefixOf ('_' :: '_' :: rest)) = false := by
    rw [show ("__LATEX_BLOCK_".toList : Str) =
      '_' :: '_' :: ['L', 'A', 'T', 'E', 'X', '_', 'B', 'L', 'O', 'C', 'K', '_']
      from rfl]
    simp [List.isPrefixOf, hrest]
  simp only [tryToken]
  rw [if_neg (by rw [hp]; decide)]

theorem tryToken_TB_single (phs : List Str) (rest : Str)
    (hrest : rest = [] ∨ ∃ c t, rest = c :: t ∧ noUnderscore c = true) :
    tryToken "__LATEX_BLOCK_".toList phs ('_' :: rest) = none := by
  have hp : ("__LATEX_BLOCK_".toList.isPrefixOf ('_' :: rest)) = false := by
    rcases hrest with rfl | ⟨c, t, rfl, hcu⟩
    · simp [List.isPrefixOf]
    · have hcc : ¬('_' = c) := by
        intro h
        rw [← h] at hcu
        simp [noUnderscore] at hcu
      rw [show ("__LATEX_BLOCK_".toList : Str) =
        '_' :: '_' :: ['L', 'A', 'T', 'E', 'X', '_', 'B', 'L', 'O', 'C', 'K', '_']
        from rfl]
      simp [List.isPrefixOf, hcc]
  simp only [tryToken]
  rw [if_neg (by rw [hp]; decide)]

/-- After an inline placeholder, the block-restore scanner finds no token at
either trailing underscore. -/
theorem renderBoth_block_safe (bk ik : Nat) (r : List MathItem)
    (phs : List Str) (hd : docOK r = true) (hr : headIsText r = true) :
    tryToken "__LATEX_BLOCK_".toList phs
        ('_' :: '_' :: renderBoth bk ik r) = none ∧
    tryToken "__LATEX_BLOCK_".toList phs ('_' :: renderBoth bk ik r) = none := by
  match r with
  | [] =>
    constructor
    · simp [renderBoth, tryToken, List.isPrefixOf]
    · simp [renderBoth, tryToken, List.isPrefixOf]
  | .text s :: r2 =>
    simp only [docOK, Bool.and_eq_true] at hd
    obtain ⟨⟨⟨hne, hall⟩, hM⟩, hd2⟩ := hd
    have hne2 : s ≠ [] := by simpa using hne
    obtain ⟨c0, s0, hs0⟩ := List.exists_cons_of_ne_nil hne2
    have hsu : s.all noUnderscore = true := all_mono hall plainCh_imp_noUnderscore
    have hGshape : renderBoth bk ik r2 = [] ∨
        (∃ g, renderBoth bk ik r2 = '_' :: '_' :: g) ∨
        (∃ g, renderBoth bk ik r2 = '$' :: g) := by
      match r2 with
      | [] => exact Or.inl rfl
      | .text s2 :: r3 => simp [headIsMath] at hM
      | .inline s2 :: r3 =>
        exact Or.inr (Or.inl ⟨'L' :: 'A' :: 'T' :: 'E' :: 'X' :: '_' :: 'I' ::
          'N' :: 'L' :: 'I' :: 'N' :: 'E' :: '_' ::
          (natDigits ik ++ '_' :: '_' :: renderBoth bk (ik + 1) r3),
          by simp [renderBoth]⟩)
      | .blockM s2 :: r3 =>
        exact Or.inr (Or.inl ⟨'L' :: 'A' :: 'T' :: 'E' :: 'X' :: '_' :: 'B' ::
          'L' :: 'O' :: 'C' :: 'K' :: '_' ::
          (natDigits bk ++ '_' :: '_' :: renderBoth (bk + 1) ik r3),
          by simp [renderBoth]⟩)
    have htail := lbTail_not_prefix s (renderBoth bk ik r2) hsu hGshape
    have hrb : renderBoth bk ik (.text s :: r2) = s ++ renderBoth bk ik r2 := rfl
    rw [hrb]
    constructor
    · exact tryToken_TB_trailing phs _ htail
    · refine tryToken_TB_single phs _
        (Or.inr ⟨c0, s0 ++ renderBoth bk ik r2, ?_, ?_⟩)
      · rw [hs0, List.cons_append]
      · rw [hs0] at hsu
        exact headOfAll hsu
  | .inline _ :: _ => simp [headIsText] at hr
  | .blockM _ :: _ => simp [headIsText] at hr


/-- The block-restore scanner passes over an inline placeholder unchanged
whenever neither trailing underscore can start a block token. -/
theorem restoreGo_TI_skip (phs : List Str) (n : Nat) (rest : Str) (k : Nat)
    (h1 : tryToken "__LATEX_BLOCK_".toList phs ('_' :: '_' :: rest) = none)
    (h2 : tryToken "__LATEX_BLOCK_".toList phs ('_' :: rest) = none) :
    restoreGo "__LATEX_BLOCK_".toList phs
        ((("__LATEX_INLINE_".toList ++ natDigits n ++ ['_', '_']) ++
          rest).length + k)
        (("__LATEX_INLINE_".toList ++ natDigits n ++ ['_', '_']) ++ rest) =
      ("__LATEX_INLINE_".toList ++ natDigits n ++ ['_', '_']) ++
        restoreGo "__LATEX_BLOCK_".toList phs (rest.length + k) rest := by
  obtain ⟨d0, ds, hds⟩ : ∃ d0 ds, natDigits n = d0 :: ds := by
    match h : natDigits n with
    | [] => exact absurd h (natDigits_ne_nil n)
    | c :: t => exact ⟨c, t, rfl⟩
  have hdig : (natDigits n).all Char.isDigit = true := natDigits_all_digit n
  have hd0 : d0.isDigit = true := by
    rw [hds] at hdig
    exact headOfAll hdig
  have harg : ("__LATEX_INLINE_".toList ++ natDigits n ++ ['_', '_']) ++ rest =
      '_' :: ('_' :: (['L', 'A', 'T', 'E', 'X'] ++ ('_' ::
        (['I', 'N', 'L', 'I', 'N', 'E'] ++ ('_' ::
          (natDigits n ++ ('_' :: ('_' :: rest)))))))) := by
    simp
  have hlen : ((("__LATEX_INLINE_".toList ++ natDigits n ++ ['_', '_']) ++
      rest).length + k) =
      ((List.length ['L', 'A', 'T', 'E', 'X'] +
        ((List.length ['I', 'N', 'L', 'I', 'N', 'E'] +
          ((List.length (natDigits n) +
            (((rest.length + k) + 1) + 1)) + 1)) + 1)) + 1) + 1 := by
    simp only [List.length_append, List.length_cons, List.length_nil,
      show ("__LATEX_INLINE_".toList : Str).length = 15 from rfl]
    omega
  have hpos0 : tryToken "__LATEX_BLOCK_".toList phs
      ('_' :: ('_' :: (['L', 'A', 'T', 'E', 'X'] ++ ('_' ::
        (['I', 'N', 'L', 'I', 'N', 'E'] ++ ('_' ::
          (natDigits n ++ ('_' :: ('_' :: rest))))))))) = none := by
    simp [tryToken, List.isPrefixOf]
  have hpos1 : tryToken "__LATEX_BLOCK_".toList phs
      ('_' :: (['L', 'A', 'T', 'E', 'X'] ++ ('_' ::
        (['I', 'N', 'L', 'I', 'N', 'E'] ++ ('_' ::
          (natDigits n ++ ('_' :: ('_' :: rest)))))))) = none := by
    simp [tryToken, List.isPrefixOf]
  have hpos7 : tryToken "__LATEX_BLOCK_".toList phs
      ('_' :: (['I', 'N', 'L', 'I', 'N', 'E'] ++ ('_' ::
        (natDigits n ++ ('_' :: ('_' :: rest)))))) = none := by
    simp [tryToken, List.isPrefixOf]
  have hne0 : ¬('_' = d0) := by
    intro h
    rw [← h] at hd0
    exact absurd hd0 (by decide)
  have hpos14 : tryToken "__LATEX_BLOCK_".toList phs
      ('_' :: (natDigits n ++ ('_' :: ('_' :: rest)))) = none := by
    rw [hds, List.cons_append]
    have hp : ("__LATEX_BLOCK_".toList.isPrefixOf
        ('_' :: d0 :: (ds ++ ('_' :: ('_' :: rest))))) = false := by
      rw [show ("__LATEX_BLOCK_".toList : Str) =
        '_' :: '_' :: ['L', 'A', 'T', 'E', 'X', '_', 'B', 'L', 'O', 'C', 'K', '_']
        from rfl]
      simp [List.isPrefixOf, hne0]
    simp only [tryToken]
    rw [if_neg (by rw [hp]; decide)]
  rw [hlen, harg,
    restoreGo_step_none _ _ _ _ _ hpos0,
    restoreGo_step_none _ _ _ _ _ hpos1,
    restoreGo_copy "__LATEX_BLOCK_".toList phs noUnderscore (tryToken_TB_noU phs)
      ['L', 'A', 'T', 'E', 'X'] (by decide) _ _,
    restoreGo_step_none _ _ _ _ _ hpos7,
    restoreGo_copy "__LATEX_BLOCK_".toList phs noUnderscore (tryToken_TB_noU phs)
      ['I', 'N', 'L', 'I', 'N', 'E'] (by decide) _ _,
    restoreGo_step_none _ _ _ _ _ hpos14,
    restoreGo_copy "__LATEX_BLOCK_".toList phs Char.isDigit
      (tryToken_TB_isDigit phs) (natDigits n) hdig _ _,
    restoreGo_step_none _ _ _ _ _ h1,
    restoreGo_step_none _ _ _ _ _ h2]
  simp


/-- Phase 3: the block-restore pass restores exactly the block spans and
leaves the inline placeholders in place. -/
theorem restoreB (d : List MathItem) :
    ∀ (hd : docOK d = true) (bk ik : Nat) (phs : List Str) (k : Nat)
      (hphs : ∀ j, j < (blockSpans d).length →
        phs.getD (bk + j) [] = (blockSpans d).getD j []),
      restoreGo "__LATEX_BLOCK_".toList phs
          ((renderBoth bk ik d).length + k) (renderBoth bk ik d) =
        renderIOnly ik d := by
  induction d with
  | nil =>
    intro _ _ ik _ _ _
    simp only [renderBoth, renderIOnly]
    exact restoreGo_nil _ _ _
  | cons it r ih =>
    intro hd bk ik phs k hphs
    match it with
    | .text s =>
      simp only [docOK, Bool.and_eq_true] at hd
      obtain ⟨⟨⟨hne, hall⟩, _⟩, hdr⟩ := hd
      have hsU : s.all noUnderscore = true :=
        all_mono hall plainCh_imp_noUnderscore
      have hphs2 : ∀ j, j < (blockSpans r).length →
          phs.getD (bk + j) [] = (blockSpans r).getD j [] := by
        intro j hj
        have := hphs j (by simp [blockSpans]; omega)
        simpa [blockSpans] using this
      have hrb : renderBoth bk ik (.text s :: r) = s ++ renderBoth bk ik r := rfl
      have hlen : (s ++ renderBoth bk ik r).length + k =
          s.length + ((renderBoth bk ik r).length + k) := by
        simp [Nat.add_assoc]
      rw [hrb, hlen,
        restoreGo_copy "__LATEX_BLOCK_".toList phs noUnderscore
          (tryToken_TB_noU phs) s hsU _ _,
        ih hdr bk ik phs k hphs2]
      simp [renderIOnly]
    | .inline s =>
      simp only [docOK, Bool.and_eq_true] at hd
      obtain ⟨⟨⟨hne, hall⟩, hrT⟩, hdr⟩ := hd
      have hphs2 : ∀ j, j < (blockSpans r).length →
          phs.getD (bk + j) [] = (blockSpans r).getD j [] := by
        intro j hj
        have := hphs j (by simp [blockSpans]; omega)
        simpa [blockSpans] using this
      obtain ⟨hh1, hh2⟩ := renderBoth_block_safe bk (ik + 1) r phs hdr hrT
      have hsh : renderBoth bk ik (.inline s :: r) =
          ("__LATEX_INLINE_".toList ++ natDigits ik ++ ['_', '_']) ++
            renderBoth bk (ik + 1) r := by
        simp [renderBoth]
      rw [hsh, restoreGo_TI_skip phs ik _ k hh1 hh2,
        ih hdr bk (ik + 1) phs k hphs2]
      simp [renderIOnly]
    | .blockM s =>
      simp only [docOK, Bool.and_eq_true] at hd
      obtain ⟨⟨⟨_, _⟩, hrT⟩, hdr⟩ := hd
      have hspan : phs.getD bk [] = '$' :: '$' :: s ++ ['$', '$'] := by
        have := hphs 0 (by simp [blockSpans])
        simpa [blockSpans] using this
      have hphs2 : ∀ j, j < (blockSpans r).length →
          phs.getD ((bk + 1) + j) [] = (blockSpans r).getD j [] := by
        intro j hj
        have hj2 : j + 1 < (blockSpans (.blockM s :: r)).length := by
          simp [blockSpans]
          omega
        have := hphs (j + 1) hj2
        rw [show bk + (j + 1) = (bk + 1) + j from by omega] at this
        simpa [blockSpans] using this
      have hsh : renderBoth bk ik (.blockM s :: r) =
          "__LATEX_BLOCK_".toList ++
            (natDigits bk ++ '_' :: '_' :: renderBoth (bk + 1) ik r) := by
        simp [renderBoth]
      have hmt := tryToken_at "__LATEX_BLOCK_".toList phs bk
        (renderBoth (bk + 1) ik r)
      have hcons : "__LATEX_BLOCK_".toList ++
          (natDigits bk ++ '_' :: '_' :: renderBoth (bk + 1) ik r) =
          '_' :: ("_LATEX_BLOCK_".toList ++
            (natDigits bk ++ '_' :: '_' :: renderBoth (bk + 1) ik r)) := by
        simp
      rw [hcons] at hmt
      have hlen : (renderBoth bk ik (.blockM s :: r)).length + k =
          ((renderBoth (bk + 1) ik r).length +
            (k + 15 + (natDigits bk).length)) + 1 := by
        rw [hsh]
        simp only [List.length_append, List.length_cons,
          show ("__LATEX_BLOCK_".toList : Str).length = 14 from rfl]
        omega
      rw [hlen, hsh, hcons, restoreGo_step_some _ _ _ _ _ _ _ hmt,
        ih hdr (bk + 1) ik phs (k + 15 + (natDigits bk).length) hphs2, hspan]
      simp [renderIOnly]


theorem tryToken_TI_noU (phs : List Str) : ∀ c t, noUnderscore c = true →
    tryToken "__LATEX_INLINE_".toList phs (c :: t) = none := by
  intro c t hc
  rw [show ("__LATEX_INLINE_".toList : Str) = '_' :: "_LATEX_INLINE_".toList
    from rfl]
  exact tryToken_none_of_head _ phs c t (by simpa [noUnderscore] using hc)

/-- Phase 4: the inline-restore pass restores exactly the inline spans,
recovering the original document. -/
theorem restoreI (d : List MathItem) :
    ∀ (hd : docOK d = true) (ik : Nat) (phs : List Str) (k : Nat)
      (hphs : ∀ j, j < (inlineSpans d).length →
        phs.getD (ik + j) [] = (inlineSpans d).getD j []),
      restoreGo "__LATEX_INLINE_".toList phs
          ((renderIOnly ik d).length + k) (renderIOnly ik d) = renderDoc d := by
  induction d with
  | nil =>
    intro _ ik _ _ _
    simp only [renderIOnly, renderDoc]
    exact restoreGo_nil _ _ _
  | cons it r ih =>
    intro hd ik phs k hphs
    match it with
    | .text s =>
      simp only [docOK, Bool.and_eq_true] at hd
      obtain ⟨⟨⟨hne, hall⟩, _⟩, hdr⟩ := hd
      have hsU : s.all noUnderscore = true :=
        all_mono hall plainCh_imp_noUnderscore
      have hphs2 : ∀ j, j < (inlineSpans r).length →
          phs.getD (ik + j) [] = (inlineSpans r).getD j [] := by
        intro j hj
        have := hphs j (by simp [inlineSpans]; omega)
        simpa [inlineSpans] using this
      have hrb : renderIOnly ik (.text s :: r) = s ++ renderIOnly ik r := rfl
      have hlen : (s ++ renderIOnly ik r).length + k =
          s.length + ((renderIOnly ik r).length + k) := by
        simp [Nat.add_assoc]
      rw [hrb, hlen,
        restoreGo_copy "__LATEX_INLINE_".toList phs noUnderscore
          (tryToken_TI_noU phs) s hsU _ _,
        ih hdr ik phs k hphs2]
      simp [renderDoc]
    | .blockM s =>
      simp only [docOK, Bool.and_eq_true] at hd
      obtain ⟨⟨⟨_, hTIs⟩, _⟩, hdr⟩ := hd
      have hTIs2 : strHas "__LATEX_INLINE_".toList s = false := by
        simpa using hTIs
      have hphs2 : ∀ j, j < (inlineSpans r).length →
          phs.getD (ik + j) [] = (inlineSpans r).getD j [] := by
        intro j hj
        have := hphs j (by simp [inlineSpans]; omega)
        simpa [inlineSpans] using this
      have hno : ∀ t2 : Str,
          tryToken "__LATEX_INLINE_".toList phs ('$' :: t2) = none :=
        fun t2 => tryToken_TI_noU phs '$' t2 (by decide)
      have hrb : renderIOnly ik (.blockM s :: r) =
          '$' :: ('$' :: (s ++ '$' :: ('$' :: renderIOnly ik r))) := rfl
      have hlen : (renderIOnly ik (.blockM s :: r)).length + k =
          ((s.length + ((((renderIOnly ik r).length + k) + 1) + 1)) + 1) + 1 := by
        rw [hrb]
        simp only [List.length_cons, List.length_append]
        omega
      rw [hlen, hrb,
        restoreGo_step_none _ _ _ _ _ (hno _),
        restoreGo_step_none _ _ _ _ _ (hno _),
        restoreGo_stop_body "__LATEX_INLINE_".toList phs '$' (by decide) s hTIs2
          ('$' :: renderIOnly ik r) _,
        restoreGo_step_none _ _ _ _ _ (hno _),
        restoreGo_step_none _ _ _ _ _ (hno _),
        ih hdr ik phs k hphs2]
      simp [renderDoc]
    | .inline s =>
      simp only [docOK, Bool.and_eq_true] at hd
      obtain ⟨⟨⟨hne, hall⟩, hrT⟩, hdr⟩ := hd
      have hspan : phs.getD ik [] = '$' :: s ++ ['$'] := by
        have := hphs 0 (by simp [inlineSpans])
        simpa [inlineSpans] using this
      have hphs2 : ∀ j, j < (inlineSpans r).length →
          phs.getD ((ik + 1) + j) [] = (inlineSpans r).getD j [] := by
        intro j hj
        have hj2 : j + 1 < (inlineSpans (.inline s :: r)).length := by
          simp [inlineSpans]
          omega
        have := hphs (j + 1) hj2
        rw [show ik + (j + 1) = (ik + 1) + j from by omega] at this
        simpa [inlineSpans] using this
      have hsh : renderIOnly ik (.inline s :: r) =
          "__LATEX_INLINE_".toList ++
            (natDigits ik ++ '_' :: '_' :: renderIOnly (ik + 1) r) := by
        simp [renderIOnly]
      have hmt := tryToken_at "__LATEX_INLINE_".toList phs ik
        (renderIOnly (ik + 1) r)
      have hcons : "__LATEX_INLINE_".toList ++
          (natDigits ik ++ '_' :: '_' :: renderIOnly (ik + 1) r) =
          '_' :: ("_LATEX_INLINE_".toList ++
            (natDigits ik ++ '_' :: '_' :: renderIOnly (ik + 1) r)) := by
        simp
      rw [hcons] at hmt
      have hlen : (renderIOnly ik (.inline s :: r)).length + k =
          ((renderIOnly (ik + 1) r).length +
            (k + 16 + (natDigits ik).length)) + 1 := by
        rw [hsh]
        simp only [List.length_append, List.length_cons,
          show ("__LATEX_INLINE_".toList : Str).length = 15 from rfl]
        omega
      rw [hlen, hsh, hcons, restoreGo_step_some _ _ _ _ _ _ _ hmt,
        ih hdr (ik + 1) phs (k + 16 + (natDigits ik).length) hphs2, hspan]
      simp [renderDoc]


/-- C2 (amended): protect-then-restore with no intervening discard is the
identity on structured documents: for a document alternating nonempty
`$`/`_`-free text runs with math spans whose inline bodies are nonempty and
`$`-free and whose block bodies are `$`-free and do not spell the inline
placeholder stem, protecting the block and then the inline math spans and
restoring against the shared placeholder list reproduces the document
byte-for-byte, so every span reappears verbatim in its original position. -/
theorem C2_protect_restore_roundtrip (d : List MathItem) (hd : docOK d = true) :
    restoreLatex
        (protectAll inlineMathSpanM "__LATEX_INLINE_".toList
          (protectAll blockMathSpanM "__LATEX_BLOCK_".toList []
            (renderDoc d)).2
          (protectAll blockMathSpanM "__LATEX_BLOCK_".toList []
            (renderDoc d)).1).2
        (protectAll inlineMathSpanM "__LATEX_INLINE_".toList
          (protectAll blockMathSpanM "__LATEX_BLOCK_".toList []
            (renderDoc d)).2
          (protectAll blockMathSpanM "__LATEX_BLOCK_".toList []
            (renderDoc d)).1).1 =
      renderDoc d := by
  have hB : protectAll blockMathSpanM "__LATEX_BLOCK_".toList []
      (renderDoc d) = (renderB 0 d, blockSpans d) := by
    have := protectB d hd 1 []
    simpa using this
  have hI : protectAll inlineMathSpanM "__LATEX_INLINE_".toList (blockSpans d)
      (renderB 0 d) =
      (renderBoth 0 (blockSpans d).length d, blockSpans d ++ inlineSpans d) := by
    have := protectI d hd 0 1 (blockSpans d)
    simpa using this
  have hRB : restoreAll "__LATEX_BLOCK_".toList
      (blockSpans d ++ inlineSpans d) (renderBoth 0 (blockSpans d).length d) =
      renderIOnly (blockSpans d).length d := by
    have hphs : ∀ j, j < (blockSpans d).length →
        (blockSpans d ++ inlineSpans d).getD (0 + j) [] =
          (blockSpans d).getD j [] := by
      intro j hj
      rw [Nat.zero_add]
      exact List.getD_append _ _ _ _ hj
    exact restoreB d hd 0 (blockSpans d).length (blockSpans d ++ inlineSpans d)
      1 hphs
  have hRI : restoreAll "__LATEX_INLINE_".toList
      (blockSpans d ++ inlineSpans d) (renderIOnly (blockSpans d).length d) =
      renderDoc d := by
    have hphs : ∀ j, j < (inlineSpans d).length →
        (blockSpans d ++ inlineSpans d).getD ((blockSpans d).length + j) [] =
          (inlineSpans d).getD j [] := by
      intro j hj
      rw [List.getD_append_right]
      · simp
      · omega
    exact restoreI d hd (blockSpans d).length (blockSpans d ++ inlineSpans d)
      1 hphs
  rw [hB]
  simp only [restoreLatex]
  rw [hI]
  simp only
  rw [hRB, hRI]

/-- Witness for C2: the round trip on a concrete document with one inline
span and one block span (whose body contains an underscore) between CJK text
runs. -/
theorem C2_witness :
    docOK c2doc = true ∧
    restoreLatex
        (protectAll inlineMathSpanM "__LATEX_INLINE_".toList
          (protectAll blockMathSpanM "__LATEX_BLOCK_".toList []
            (renderDoc c2doc)).2
          (protectAll blockMathSpanM "__LATEX_BLOCK_".toList []
            (renderDoc c2doc)).1).2
        (protectAll inlineMathSpanM "__LATEX_INLINE_".toList
          (protectAll blockMathSpanM "__LATEX_BLOCK_".toList []
            (renderDoc c2doc)).2
          (protectAll blockMathSpanM "__LATEX_BLOCK_".toList []
            (renderDoc c2doc)).1).1 =
      renderDoc c2doc :=
  ⟨by decide, C2_protect_restore_roundtrip c2doc (by decide)⟩

/-- C10: every result of the later `convertQuestion` starts with `\item`:
the leading `\item` is stripped from the input, and re-attached whenever the
per-type conversion does not already produce it. -/
theorem C10_item_invariant (content : Str) :
    "\\item".toList.isPrefixOf (convertQuestion content) = true := by
  simp only [convertQuestion]
  exact ensureItem_isPrefix _

end LatexPaste
